import Mathlib

/-!
Verification of the scalar-exchange core (src/index.ts): the path-based
tree mapper `mapScalar`, the input-path resolver `getScalarsInInput`, the
output-path resolver `getScalarsInQuery` (fragment collection plus memoized
fragment resolution), and the exchange pipeline that threads them over
operations and results.

JavaScript values reachable in this code (operation variables, response
data) are modelled by `JTree`: `null` stands for both JS `null` and
`undefined`, `leaf` for scalar values, `arr` for arrays and `obj` for plain
objects as ordered key/value lists.  Property access on a missing key gives
`null` (JS `undefined`), and JS object spread `{ ...x }` is `spread`:
objects copy their fields, arrays become index-keyed fields, and scalar
leaves contribute no enumerable fields (as for numbers, booleans and Date
objects; character-indexed string spread is not needed by any property
checked here, since the mapper only ever spreads values sitting at object
positions of the data).
-/

inductive JTree where
  | null : JTree
  | leaf : String → JTree
  | arr : List JTree → JTree
  | obj : List (String × JTree) → JTree
deriving Repr

def JTree.isNull : JTree → Bool
  | .null => true
  | _ => false

def JTree.isArr : JTree → Bool
  | .arr _ => true
  | _ => false

def JTree.isObj : JTree → Bool
  | .obj _ => true
  | _ => false

/-- JS `{ ...data }`: the own enumerable properties of `data` as a field list. -/
def spread : JTree → List (String × JTree)
  | .obj fs => fs
  | .arr xs => xs.enum.map (fun e => (toString e.1, e.2))
  | _ => []

/-- JS property read `fields[s]` on an object given as a field list; a missing
key reads as `null` (JS `undefined`). -/
def lookupField : List (String × JTree) → String → JTree
  | [], _ => .null
  | (k, v) :: rest, s => if k = s then v else lookupField rest s

/-- JS property write `fields[s] = v`: replaces the value of an existing key in
place (preserving field order), appends the key otherwise. -/
def setKey : List (String × JTree) → String → JTree → List (String × JTree)
  | [], s, v => [(s, v)]
  | (k, w) :: rest, s, v => if k = s then (k, v) :: rest else (k, w) :: setKey rest s v

/-- Reading field `s` of an arbitrary value, through JS spread semantics. -/
def objGet (d : JTree) (s : String) : JTree := lookupField (spread d) s

/-- The body of `mapScalar` after the null check (src/index.ts lines 101-128):
the loop over the non-final path segments followed by the final-segment
update, written as structural recursion on the path over the field list of
the shallow copy `{ ...data }`.  The recursive `mapScalar(subData, subPath,
mapping)` call on an array element is inlined as its null test plus spread. -/
def mapGo (t : JTree → JTree) : List String → List (String × JTree) → List (String × JTree)
  | [], fields => fields
  | [final], fields =>
    match lookupField fields final with
    | .arr xs => setKey fields final (.arr (xs.map t))
    | .null => fields
    | v => setKey fields final (t v)
  | seg :: s2 :: rest, fields =>
    match lookupField fields seg with
    | .arr xs =>
      setKey fields seg (.arr (xs.map (fun sub =>
        match sub with
        | .null => JTree.null
        | d => .obj (mapGo t (s2 :: rest) (spread d)))))
    | .null => fields
    | v => setKey fields seg (.obj (mapGo t (s2 :: rest) (spread v)))

/-- `mapScalar(data, path, mapping)` (src/index.ts lines 92-129): null data is
returned unchanged, otherwise a shallow copy `{ ...data }` is taken and the
path is walked by `mapGo`. -/
def mapScalar (data : JTree) (path : List String) (t : JTree → JTree) : JTree :=
  match data with
  | .null => .null
  | d => .obj (mapGo t path (spread d))

/-- The list of arguments `mapScalar(data, path, ·)` feeds to its transform, in
call order: nothing along null or missing segments, one argument per element
of an array met at the final segment, one argument for a present non-array
final value, and the recursive collection for every element of an array met
at a non-final segment. -/
def goCalls : List String → List (String × JTree) → List JTree
  | [], _ => []
  | [final], fields =>
    match lookupField fields final with
    | .arr xs => xs
    | .null => []
    | v => [v]
  | seg :: s2 :: rest, fields =>
    match lookupField fields seg with
    | .arr xs =>
      xs.flatMap (fun sub =>
        match sub with
        | .null => []
        | d => goCalls (s2 :: rest) (spread d))
    | .null => []
    | v => goCalls (s2 :: rest) (spread v)

def mapCalls (data : JTree) (path : List String) : List JTree :=
  match data with
  | .null => []
  | d => goCalls path (spread d)

theorem mapScalar_null (path : List String) (t : JTree → JTree) :
    mapScalar JTree.null path t = JTree.null := rfl

/-- `mapGo` on a non-final array segment is exactly `mapScalar` of the
remaining path applied to every element (the inlined form written out). -/
theorem mapGo_cons_arr (t : JTree → JTree) (seg s2 : String) (rest : List String)
    (fields : List (String × JTree)) (xs : List JTree)
    (h : lookupField fields seg = JTree.arr xs) :
    mapGo t (seg :: s2 :: rest) fields =
      setKey fields seg (.arr (xs.map (fun sub => mapScalar sub (s2 :: rest) t))) := by
  have : (fun sub =>
      match sub with
      | .null => JTree.null
      | d => JTree.obj (mapGo t (s2 :: rest) (spread d))) =
      (fun sub => mapScalar sub (s2 :: rest) t) := by
    funext sub
    cases sub <;> rfl
  simp only [mapGo, h, this]

theorem goCalls_cons_arr (seg s2 : String) (rest : List String)
    (fields : List (String × JTree)) (xs : List JTree)
    (h : lookupField fields seg = JTree.arr xs) :
    goCalls (seg :: s2 :: rest) fields =
      xs.flatMap (fun sub => mapCalls sub (s2 :: rest)) := by
  have : (fun sub =>
      match sub with
      | .null => ([] : List JTree)
      | d => goCalls (s2 :: rest) (spread d)) =
      (fun sub => mapCalls sub (s2 :: rest)) := by
    funext sub
    cases sub <;> rfl
  simp only [goCalls, h, this]

theorem lookupField_setKey_self (l : List (String × JTree)) (k : String) (v : JTree) :
    lookupField (setKey l k v) k = v := by
  induction l with
  | nil => simp [setKey, lookupField]
  | cons e rest ih =>
    obtain ⟨k2, w⟩ := e
    by_cases h : k2 = k <;> simp [setKey, lookupField, h, ih]

theorem lookupField_setKey_ne (l : List (String × JTree)) (k k2 : String) (v : JTree)
    (h : k2 ≠ k) : lookupField (setKey l k v) k2 = lookupField l k2 := by
  induction l with
  | nil => simp [setKey, lookupField, Ne.symm h]
  | cons e rest ih =>
    obtain ⟨k3, w⟩ := e
    by_cases h3 : k3 = k
    · subst h3
      simp [setKey, lookupField, Ne.symm h]
    · simp [setKey, lookupField, h3, ih]

theorem setKey_setKey_self (l : List (String × JTree)) (k : String) (a b : JTree) :
    setKey (setKey l k a) k b = setKey l k b := by
  induction l with
  | nil => simp [setKey]
  | cons e rest ih =>
    obtain ⟨k2, w⟩ := e
    by_cases h : k2 = k <;> simp [setKey, h, ih]

theorem setKey_lookupField_self (l : List (String × JTree)) (k : String)
    (h : lookupField l k ≠ JTree.null) : setKey l k (lookupField l k) = l := by
  induction l with
  | nil => simp [lookupField] at h
  | cons e rest ih =>
    obtain ⟨k2, w⟩ := e
    by_cases h2 : k2 = k
    · subst h2
      simp [setKey, lookupField] at h ⊢
    · simp [setKey, lookupField, h2, Ne.symm h2] at h ⊢
      exact ih h

/-- The path meets a null or missing value at a non-final segment of the data,
descending through plain objects. -/
def nullOnSpine (d : JTree) : List String → Bool
  | [] => false
  | [_] => false
  | s :: s2 :: rest =>
    match objGet d s with
    | .null => true
    | .obj g => nullOnSpine (.obj g) (s2 :: rest)
    | _ => false

theorem mapGo_nullOnSpine (path : List String) (fields : List (String × JTree))
    (t : JTree → JTree) (h : nullOnSpine (JTree.obj fields) path = true) :
    mapGo t path fields = fields ∧ goCalls path fields = [] := by
  induction path generalizing fields with
  | nil => simp [nullOnSpine] at h
  | cons s rest ih =>
    cases rest with
    | nil => simp [nullOnSpine] at h
    | cons s2 rest2 =>
      simp only [nullOnSpine, objGet, spread] at h
      cases hv : lookupField fields s with
      | null => simp [mapGo, goCalls, hv]
      | leaf v => simp [hv] at h
      | arr xs => simp [hv] at h
      | obj g =>
        rw [hv] at h
        obtain ⟨hm, hc⟩ := ih g h
        constructor
        · simp only [mapGo, hv, spread, hm]
          have h2 := setKey_lookupField_self fields s (by simp [hv])
          rw [hv] at h2
          exact h2
        · simp only [goCalls, hv, spread, hc]

/-- C3: at a non-final segment holding an array, the remaining path is applied
by `mapScalar` independently to every element (each element is the root of a
fresh recursive call), and an array at the final segment has the transform
mapped over its elements; for `{list: ["a","a"]}` with path `["list"]` the
transform receives exactly two arguments, one per element. -/
theorem c3_array_transparency :
    (∀ (d : JTree) (seg s2 : String) (rest : List String) (t : JTree → JTree)
        (xs : List JTree), d ≠ JTree.null → objGet d seg = JTree.arr xs →
      mapScalar d (seg :: s2 :: rest) t =
        JTree.obj (setKey (spread d) seg
          (JTree.arr (xs.map (fun e => mapScalar e (s2 :: rest) t)))) ∧
      mapCalls d (seg :: s2 :: rest) = xs.flatMap (fun e => mapCalls e (s2 :: rest))) ∧
    (∀ (d : JTree) (final : String) (t : JTree → JTree) (xs : List JTree),
        d ≠ JTree.null → objGet d final = JTree.arr xs →
      mapScalar d [final] t = JTree.obj (setKey (spread d) final (JTree.arr (xs.map t))) ∧
      mapCalls d [final] = xs) ∧
    mapCalls (JTree.obj [("list", JTree.arr [JTree.leaf "a", JTree.leaf "a"])]) ["list"] =
      [JTree.leaf "a", JTree.leaf "a"] := by
  refine ⟨?_, ?_, rfl⟩
  · intro d seg s2 rest t xs hd h
    unfold objGet at h
    cases d with
    | null => exact absurd rfl hd
    | leaf v =>
      exact ⟨by simp only [mapScalar, mapGo_cons_arr t seg s2 rest _ xs h],
             by simp only [mapCalls, goCalls_cons_arr seg s2 rest _ xs h]⟩
    | arr ys =>
      exact ⟨by simp only [mapScalar, mapGo_cons_arr t seg s2 rest _ xs h],
             by simp only [mapCalls, goCalls_cons_arr seg s2 rest _ xs h]⟩
    | obj fs =>
      exact ⟨by simp only [mapScalar, mapGo_cons_arr t seg s2 rest _ xs h],
             by simp only [mapCalls, goCalls_cons_arr seg s2 rest _ xs h]⟩
  · intro d final t xs hd h
    unfold objGet at h
    cases d with
    | null => exact absurd rfl hd
    | leaf v => exact ⟨by simp only [mapScalar, mapGo, h], by simp only [mapCalls, goCalls, h]⟩
    | arr ys => exact ⟨by simp only [mapScalar, mapGo, h], by simp only [mapCalls, goCalls, h]⟩
    | obj fs => exact ⟨by simp only [mapScalar, mapGo, h], by simp only [mapCalls, goCalls, h]⟩

/-- C4: a null root is returned unchanged; meeting a null or missing value at
a non-final segment (descending through plain objects) returns the tree with
content unchanged and the transform is invoked zero times, as in the
`{nestedNullable: null}` test case. -/
theorem c4_null_propagation :
    (∀ (path : List String) (t : JTree → JTree), mapScalar JTree.null path t = JTree.null) ∧
    (∀ (fields : List (String × JTree)) (path : List String) (t : JTree → JTree),
        nullOnSpine (JTree.obj fields) path = true →
      mapScalar (JTree.obj fields) path t = JTree.obj fields ∧
      mapCalls (JTree.obj fields) path = []) ∧
    (∀ t : JTree → JTree,
      mapScalar (JTree.obj [("nestedNullable", JTree.null)]) ["nestedNullable", "name"] t =
        JTree.obj [("nestedNullable", JTree.null)] ∧
      mapCalls (JTree.obj [("nestedNullable", JTree.null)]) ["nestedNullable", "name"] = []) := by
  refine ⟨fun _ _ => rfl, ?_, fun t => ⟨rfl, rfl⟩⟩
  intro fields path t h
  obtain ⟨hm, hc⟩ := mapGo_nullOnSpine path fields t h
  exact ⟨by simp only [mapScalar, spread, hm], by simp only [mapCalls, spread, hc]⟩

theorem mapGo_final_arr (t : JTree → JTree) (final : String) (fields : List (String × JTree))
    (xs : List JTree) (h : lookupField fields final = JTree.arr xs) :
    mapGo t [final] fields = setKey fields final (JTree.arr (xs.map t)) := by
  simp only [mapGo, h]

theorem mapGo_final_null (t : JTree → JTree) (final : String) (fields : List (String × JTree))
    (h : lookupField fields final = JTree.null) : mapGo t [final] fields = fields := by
  simp only [mapGo, h]

theorem mapGo_final_leaf (t : JTree → JTree) (final : String) (fields : List (String × JTree))
    (w : String) (h : lookupField fields final = JTree.leaf w) :
    mapGo t [final] fields = setKey fields final (t (JTree.leaf w)) := by
  simp only [mapGo, h]

theorem mapGo_final_obj (t : JTree → JTree) (final : String) (fields : List (String × JTree))
    (g : List (String × JTree)) (h : lookupField fields final = JTree.obj g) :
    mapGo t [final] fields = setKey fields final (t (JTree.obj g)) := by
  simp only [mapGo, h]

theorem mapGo_cons_null (t : JTree → JTree) (seg s2 : String) (rest : List String)
    (fields : List (String × JTree)) (h : lookupField fields seg = JTree.null) :
    mapGo t (seg :: s2 :: rest) fields = fields := by
  simp only [mapGo, h]

theorem mapGo_cons_leaf (t : JTree → JTree) (seg s2 : String) (rest : List String)
    (fields : List (String × JTree)) (w : String) (h : lookupField fields seg = JTree.leaf w) :
    mapGo t (seg :: s2 :: rest) fields =
      setKey fields seg (JTree.obj (mapGo t (s2 :: rest) [])) := by
  simp only [mapGo, h, spread]

theorem mapGo_cons_obj (t : JTree → JTree) (seg s2 : String) (rest : List String)
    (fields g : List (String × JTree)) (h : lookupField fields seg = JTree.obj g) :
    mapGo t (seg :: s2 :: rest) fields =
      setKey fields seg (JTree.obj (mapGo t (s2 :: rest) g)) := by
  simp only [mapGo, h, spread]

theorem goCalls_final_arr (final : String) (fields : List (String × JTree))
    (xs : List JTree) (h : lookupField fields final = JTree.arr xs) :
    goCalls [final] fields = xs := by
  simp only [goCalls, h]

theorem goCalls_final_null (final : String) (fields : List (String × JTree))
    (h : lookupField fields final = JTree.null) : goCalls [final] fields = [] := by
  simp only [goCalls, h]

theorem goCalls_cons_null (seg s2 : String) (rest : List String)
    (fields : List (String × JTree)) (h : lookupField fields seg = JTree.null) :
    goCalls (seg :: s2 :: rest) fields = [] := by
  simp only [goCalls, h]

theorem goCalls_cons_obj (seg s2 : String) (rest : List String)
    (fields g : List (String × JTree)) (h : lookupField fields seg = JTree.obj g) :
    goCalls (seg :: s2 :: rest) fields = goCalls (s2 :: rest) g := by
  simp only [goCalls, h, spread]

theorem mapGo_compose (t t2 : JTree → JTree)
    (ht : ∀ v, t v ≠ JTree.null ∧ (t v).isArr = false) :
    ∀ (p : List String) (fields : List (String × JTree)),
      mapGo t2 p (mapGo t p fields) = mapGo (t2 ∘ t) p fields := by
  intro p
  induction p with
  | nil => intro fields; rfl
  | cons s rest ih =>
    intro fields
    cases rest with
    | nil =>
      cases hv : lookupField fields s with
      | null => rw [mapGo_final_null t s fields hv, mapGo_final_null t2 s fields hv,
                    mapGo_final_null (t2 ∘ t) s fields hv]
      | arr xs =>
        rw [mapGo_final_arr t s fields xs hv,
            mapGo_final_arr t2 s _ (xs.map t) (lookupField_setKey_self fields s _),
            mapGo_final_arr (t2 ∘ t) s fields xs hv, setKey_setKey_self, List.map_map]
      | leaf w =>
        rw [mapGo_final_leaf t s fields w hv]
        obtain ⟨h1, h2⟩ := ht (JTree.leaf w)
        have hl : lookupField (setKey fields s (t (JTree.leaf w))) s = t (JTree.leaf w) :=
          lookupField_setKey_self fields s _
        cases hc : t (JTree.leaf w) with
        | null => exact absurd hc h1
        | arr ys => rw [hc] at h2; simp [JTree.isArr] at h2
        | leaf u =>
          rw [hc] at hl
          rw [mapGo_final_leaf t2 s _ u hl, setKey_setKey_self,
              mapGo_final_leaf (t2 ∘ t) s fields w hv, Function.comp_apply, hc]
        | obj g =>
          rw [hc] at hl
          rw [mapGo_final_obj t2 s _ g hl, setKey_setKey_self,
              mapGo_final_leaf (t2 ∘ t) s fields w hv, Function.comp_apply, hc]
      | obj g =>
        rw [mapGo_final_obj t s fields g hv]
        obtain ⟨h1, h2⟩ := ht (JTree.obj g)
        have hl : lookupField (setKey fields s (t (JTree.obj g))) s = t (JTree.obj g) :=
          lookupField_setKey_self fields s _
        cases hc : t (JTree.obj g) with
        | null => exact absurd hc h1
        | arr ys => rw [hc] at h2; simp [JTree.isArr] at h2
        | leaf u =>
          rw [hc] at hl
          rw [mapGo_final_leaf t2 s _ u hl, setKey_setKey_self,
              mapGo_final_obj (t2 ∘ t) s fields g hv, Function.comp_apply, hc]
        | obj g2 =>
          rw [hc] at hl
          rw [mapGo_final_obj t2 s _ g2 hl, setKey_setKey_self,
              mapGo_final_obj (t2 ∘ t) s fields g hv, Function.comp_apply, hc]
    | cons s2 rest2 =>
      cases hv : lookupField fields s with
      | null => rw [mapGo_cons_null t s s2 rest2 fields hv, mapGo_cons_null t2 s s2 rest2 fields hv,
                    mapGo_cons_null (t2 ∘ t) s s2 rest2 fields hv]
      | arr xs =>
        rw [mapGo_cons_arr t s s2 rest2 fields xs hv,
            mapGo_cons_arr (t2 ∘ t) s s2 rest2 fields xs hv]
        have hl : lookupField (setKey fields s
            (JTree.arr (xs.map (fun e => mapScalar e (s2 :: rest2) t)))) s =
            JTree.arr (xs.map (fun e => mapScalar e (s2 :: rest2) t)) :=
          lookupField_setKey_self fields s _
        rw [mapGo_cons_arr t2 s s2 rest2 _ _ hl, setKey_setKey_self, List.map_map]
        have hfun : ((fun sub => mapScalar sub (s2 :: rest2) t2) ∘
            fun e => mapScalar e (s2 :: rest2) t) =
            fun sub => mapScalar sub (s2 :: rest2) (t2 ∘ t) := by
          funext e
          cases e with
          | null => rfl
          | leaf w => exact congrArg JTree.obj (ih _)
          | arr ys => exact congrArg JTree.obj (ih _)
          | obj g2 => exact congrArg JTree.obj (ih _)
        rw [hfun]
      | leaf w =>
        rw [mapGo_cons_leaf t s s2 rest2 fields w hv]
        have hl : lookupField (setKey fields s (JTree.obj (mapGo t (s2 :: rest2) []))) s =
            JTree.obj (mapGo t (s2 :: rest2) []) := lookupField_setKey_self fields s _
        rw [mapGo_cons_obj t2 s s2 rest2 _ _ hl, setKey_setKey_self, ih,
            mapGo_cons_leaf (t2 ∘ t) s s2 rest2 fields w hv]
      | obj g =>
        rw [mapGo_cons_obj t s s2 rest2 fields g hv]
        have hl : lookupField (setKey fields s (JTree.obj (mapGo t (s2 :: rest2) g))) s =
            JTree.obj (mapGo t (s2 :: rest2) g) := lookupField_setKey_self fields s _
        rw [mapGo_cons_obj t2 s s2 rest2 _ _ hl, setKey_setKey_self, ih,
            mapGo_cons_obj (t2 ∘ t) s s2 rest2 fields g hv]

/-- C5 counterexample: with transforms of the code's actual type (any value to
any value, `MapFunction`), the two-pass/one-pass equivalence fails at a
concrete input: a first transform returning null makes the second pass skip
the position that the composed transform rewrites. -/
theorem c5_counterexample :
    mapScalar (mapScalar (JTree.obj [("a", JTree.leaf "x")]) ["a"] (fun _ => JTree.null))
        ["a"] (fun _ => JTree.leaf "z") ≠
      mapScalar (JTree.obj [("a", JTree.leaf "x")]) ["a"]
        ((fun _ => JTree.leaf "z") ∘ fun _ => JTree.null) := by
  intro h
  have h2 : JTree.obj [("a", JTree.null)] = JTree.obj [("a", JTree.leaf "z")] := h
  simp at h2

/-- C5 (amended): applying the mapper twice at the same path with `t` then `t2`
equals one application with the composed transform, provided `t` never
returns null and never returns an array — which holds of scalar transforms,
mapping present scalar values to present scalar values. -/
theorem c5_map_compose (d : JTree) (p : List String) (t t2 : JTree → JTree)
    (ht : ∀ v, t v ≠ JTree.null ∧ (t v).isArr = false) :
    mapScalar (mapScalar d p t) p t2 = mapScalar d p (t2 ∘ t) := by
  cases d with
  | null => rfl
  | leaf w => exact congrArg JTree.obj (mapGo_compose t t2 ht p _)
  | arr xs => exact congrArg JTree.obj (mapGo_compose t t2 ht p _)
  | obj fs => exact congrArg JTree.obj (mapGo_compose t t2 ht p _)

theorem c5_map_compose_w :
    mapScalar (mapScalar (JTree.obj [("a", JTree.leaf "x")]) ["a"] (fun _ => JTree.leaf "k"))
        ["a"] (fun v => v) =
      mapScalar (JTree.obj [("a", JTree.leaf "x")]) ["a"]
        ((fun v => v) ∘ fun _ => JTree.leaf "k") :=
  c5_map_compose _ _ _ _ (fun _ => ⟨by simp, rfl⟩)

theorem mapGo_frame (fields : List (String × JTree)) (s : String) (rest : List String)
    (t : JTree → JTree) :
    (∀ s2, s2 ≠ s → lookupField (mapGo t (s :: rest) fields) s2 = lookupField fields s2) ∧
    lookupField (mapGo t (s :: rest) fields) s =
      (match lookupField fields s, rest with
       | JTree.null, _ => JTree.null
       | JTree.arr xs, [] => JTree.arr (xs.map t)
       | JTree.arr xs, s2 :: r2 => JTree.arr (xs.map (fun e => mapScalar e (s2 :: r2) t))
       | v, [] => t v
       | v, s2 :: r2 => mapScalar v (s2 :: r2) t) := by
  cases rest with
  | nil =>
    cases hv : lookupField fields s with
    | null => rw [mapGo_final_null t s fields hv]; exact ⟨fun _ _ => rfl, by rw [hv]⟩
    | arr xs =>
      rw [mapGo_final_arr t s fields xs hv]
      exact ⟨fun s2 h2 => lookupField_setKey_ne fields s s2 _ h2,
             by rw [lookupField_setKey_self]⟩
    | leaf w =>
      rw [mapGo_final_leaf t s fields w hv]
      exact ⟨fun s2 h2 => lookupField_setKey_ne fields s s2 _ h2,
             by rw [lookupField_setKey_self]⟩
    | obj g =>
      rw [mapGo_final_obj t s fields g hv]
      exact ⟨fun s2 h2 => lookupField_setKey_ne fields s s2 _ h2,
             by rw [lookupField_setKey_self]⟩
  | cons s2 r2 =>
    cases hv : lookupField fields s with
    | null => rw [mapGo_cons_null t s s2 r2 fields hv]; exact ⟨fun _ _ => rfl, by rw [hv]⟩
    | arr xs =>
      rw [mapGo_cons_arr t s s2 r2 fields xs hv]
      exact ⟨fun s3 h3 => lookupField_setKey_ne fields s s3 _ h3,
             by rw [lookupField_setKey_self]⟩
    | leaf w =>
      rw [mapGo_cons_leaf t s s2 r2 fields w hv]
      exact ⟨fun s3 h3 => lookupField_setKey_ne fields s s3 _ h3,
             by rw [lookupField_setKey_self]; rfl⟩
    | obj g =>
      rw [mapGo_cons_obj t s s2 r2 fields g hv]
      exact ⟨fun s3 h3 => lookupField_setKey_ne fields s s3 _ h3,
             by rw [lookupField_setKey_self]; rfl⟩

/-- C6: the mapper changes no sibling of the path: in the result, reading any
field other than the next path segment reads the very value of the input
(at the root here, and hence at every node along the path, since the second
conjunct shows the value at the path segment is exactly the recursive
rebuild of the input's node there: null kept, arrays rebuilt element-wise by
the recursive call, other values transformed or rebuilt by the recursive
call).  The model is a pure function, so the input tree itself is unmutated
by construction; identity sharing of siblings versus fresh copies of path
nodes is a heap notion that a value model states as: siblings read equal,
path nodes are rebuilt. -/
theorem c6_sibling_frame (d : JTree) (s : String) (rest : List String) (t : JTree → JTree) :
    (∀ s2, s2 ≠ s → objGet (mapScalar d (s :: rest) t) s2 = objGet d s2) ∧
    objGet (mapScalar d (s :: rest) t) s =
      (match objGet d s, rest with
       | JTree.null, _ => JTree.null
       | JTree.arr xs, [] => JTree.arr (xs.map t)
       | JTree.arr xs, s2 :: r2 => JTree.arr (xs.map (fun e => mapScalar e (s2 :: r2) t))
       | v, [] => t v
       | v, s2 :: r2 => mapScalar v (s2 :: r2) t) := by
  cases d with
  | null =>
    refine ⟨fun _ _ => rfl, ?_⟩
    cases rest <;> rfl
  | leaf w => exact mapGo_frame (spread (JTree.leaf w)) s rest t
  | arr xs => exact mapGo_frame (spread (JTree.arr xs)) s rest t
  | obj fs => exact mapGo_frame (spread (JTree.obj fs)) s rest t

theorem goCalls_final_leaf (final : String) (fields : List (String × JTree)) (w : String)
    (h : lookupField fields final = JTree.leaf w) :
    goCalls [final] fields = [JTree.leaf w] := by
  simp only [goCalls, h]

theorem goCalls_final_obj (final : String) (fields : List (String × JTree))
    (g : List (String × JTree)) (h : lookupField fields final = JTree.obj g) :
    goCalls [final] fields = [JTree.obj g] := by
  simp only [goCalls, h]

theorem goCalls_cons_leaf (seg s2 : String) (rest : List String)
    (fields : List (String × JTree)) (w : String) (h : lookupField fields seg = JTree.leaf w) :
    goCalls (seg :: s2 :: rest) fields = goCalls (s2 :: rest) [] := by
  simp only [goCalls, h, spread]

/-- `mapScalar` consults its transform at exactly the arguments `mapCalls`
lists: two transforms agreeing there produce the same output tree. -/
theorem mapGo_congr (p : List String) :
    ∀ (fields : List (String × JTree)) (t t2 : JTree → JTree),
      (∀ v ∈ goCalls p fields, t v = t2 v) → mapGo t p fields = mapGo t2 p fields := by
  induction p with
  | nil => intro fields t t2 _; rfl
  | cons s rest ih =>
    intro fields t t2 hag
    cases rest with
    | nil =>
      cases hl : lookupField fields s with
      | null => rw [mapGo_final_null t s fields hl, mapGo_final_null t2 s fields hl]
      | arr xs =>
        rw [goCalls_final_arr s fields xs hl] at hag
        rw [mapGo_final_arr t s fields xs hl, mapGo_final_arr t2 s fields xs hl,
            List.map_congr_left hag]
      | leaf w =>
        rw [goCalls_final_leaf s fields w hl] at hag
        rw [mapGo_final_leaf t s fields w hl, mapGo_final_leaf t2 s fields w hl,
            hag (JTree.leaf w) (List.mem_singleton_self _)]
      | obj g =>
        rw [goCalls_final_obj s fields g hl] at hag
        rw [mapGo_final_obj t s fields g hl, mapGo_final_obj t2 s fields g hl,
            hag (JTree.obj g) (List.mem_singleton_self _)]
    | cons s2 r2 =>
      cases hl : lookupField fields s with
      | null => rw [mapGo_cons_null t s s2 r2 fields hl, mapGo_cons_null t2 s s2 r2 fields hl]
      | arr xs =>
        rw [goCalls_cons_arr s s2 r2 fields xs hl] at hag
        rw [mapGo_cons_arr t s s2 r2 fields xs hl, mapGo_cons_arr t2 s s2 r2 fields xs hl]
        have : ∀ e ∈ xs, mapScalar e (s2 :: r2) t = mapScalar e (s2 :: r2) t2 := by
          intro e he
          cases e with
          | null => rfl
          | leaf w =>
            refine congrArg JTree.obj (ih _ t t2 (fun v hv => hag v ?_))
            exact List.mem_flatMap.mpr ⟨JTree.leaf w, he, hv⟩
          | arr ys =>
            refine congrArg JTree.obj (ih _ t t2 (fun v hv => hag v ?_))
            exact List.mem_flatMap.mpr ⟨JTree.arr ys, he, hv⟩
          | obj g =>
            refine congrArg JTree.obj (ih _ t t2 (fun v hv => hag v ?_))
            exact List.mem_flatMap.mpr ⟨JTree.obj g, he, hv⟩
        rw [List.map_congr_left this]
      | leaf w =>
        rw [goCalls_cons_leaf s s2 r2 fields w hl] at hag
        rw [mapGo_cons_leaf t s s2 r2 fields w hl, mapGo_cons_leaf t2 s s2 r2 fields w hl,
            ih [] t t2 hag]
      | obj g =>
        rw [goCalls_cons_obj s s2 r2 fields g hl] at hag
        rw [mapGo_cons_obj t s s2 r2 fields g hl, mapGo_cons_obj t2 s s2 r2 fields g hl,
            ih g t t2 hag]

theorem mapScalar_congr (d : JTree) (p : List String) (t t2 : JTree → JTree)
    (hag : ∀ v ∈ mapCalls d p, t v = t2 v) : mapScalar d p t = mapScalar d p t2 := by
  cases d with
  | null => rfl
  | leaf w => exact congrArg JTree.obj (mapGo_congr p _ t t2 hag)
  | arr xs => exact congrArg JTree.obj (mapGo_congr p _ t t2 hag)
  | obj fs => exact congrArg JTree.obj (mapGo_congr p _ t t2 hag)

/-- No array anywhere inside the value has a null element (response lists
of non-nullable element type, e.g. `[String!]`, satisfy this). -/
inductive NoNullArrElem : JTree → Prop where
  | null : NoNullArrElem JTree.null
  | leaf : ∀ s, NoNullArrElem (JTree.leaf s)
  | arr : ∀ xs, (∀ x ∈ xs, x ≠ JTree.null) → (∀ x ∈ xs, NoNullArrElem x) →
      NoNullArrElem (JTree.arr xs)
  | obj : ∀ fs, (∀ e ∈ fs, NoNullArrElem e.2) → NoNullArrElem (JTree.obj fs)

theorem snd_mem_of_mem_enumFrom {α : Type} (xs : List α) (n : Nat) (p : Nat × α)
    (h : p ∈ xs.enumFrom n) : p.2 ∈ xs := by
  induction xs generalizing n with
  | nil => simp [List.enumFrom] at h
  | cons x rest ih =>
    simp only [List.enumFrom, List.mem_cons] at h
    cases h with
    | inl h => rw [h]; exact List.mem_cons_self x rest
    | inr h => exact List.mem_cons_of_mem x (ih (n + 1) h)

theorem noNullArrElem_spread (d : JTree) (h : NoNullArrElem d) :
    ∀ e ∈ spread d, NoNullArrElem e.2 := by
  cases h with
  | null => intro e he; simp [spread] at he
  | leaf s => intro e he; simp [spread] at he
  | obj fs h2 => exact h2
  | arr xs hn h2 =>
    intro e he
    simp only [spread, List.enum, List.mem_map] at he
    obtain ⟨p, hp, hpe⟩ := he
    have := snd_mem_of_mem_enumFrom xs 0 p hp
    rw [← hpe]
    exact h2 p.2 this

theorem lookupField_mem (l : List (String × JTree)) (s : String)
    (h : lookupField l s ≠ JTree.null) : ∃ e ∈ l, e.2 = lookupField l s := by
  induction l with
  | nil => simp [lookupField] at h
  | cons e rest ih =>
    obtain ⟨k, v⟩ := e
    by_cases h2 : k = s
    · exact ⟨(k, v), List.mem_cons_self _ _, by simp [lookupField, h2]⟩
    · simp only [lookupField, h2, if_false] at h
      obtain ⟨e2, he2, hev⟩ := ih h
      exact ⟨e2, List.mem_cons_of_mem _ he2, by simp [lookupField, h2, hev]⟩

theorem goCalls_no_null (p : List String) :
    ∀ (fields : List (String × JTree)), (∀ e ∈ fields, NoNullArrElem e.2) →
      ∀ v ∈ goCalls p fields, v ≠ JTree.null := by
  induction p with
  | nil => intro fields _ v hv; simp [goCalls] at hv
  | cons s rest ih =>
    intro fields hf v hv
    have fieldVal : ∀ (w : JTree), lookupField fields s = w → w ≠ JTree.null →
        NoNullArrElem w := by
      intro w hw hwn
      obtain ⟨e, he, hev⟩ := lookupField_mem fields s (by rw [hw]; exact hwn)
      have := hf e he
      rw [hev, hw] at this
      exact this
    cases rest with
    | nil =>
      cases hl : lookupField fields s with
      | null => rw [goCalls_final_null s fields hl] at hv; simp at hv
      | arr xs =>
        rw [goCalls_final_arr s fields xs hl] at hv
        have hna := fieldVal (JTree.arr xs) hl (by simp)
        cases hna with
        | arr _ hn _ => exact hn v hv
      | leaf w =>
        rw [goCalls_final_leaf s fields w hl] at hv
        rw [List.mem_singleton.mp hv]
        simp
      | obj g =>
        rw [goCalls_final_obj s fields g hl] at hv
        rw [List.mem_singleton.mp hv]
        simp
    | cons s2 r2 =>
      cases hl : lookupField fields s with
      | null => rw [goCalls_cons_null s s2 r2 fields hl] at hv; simp at hv
      | arr xs =>
        rw [goCalls_cons_arr s s2 r2 fields xs hl] at hv
        obtain ⟨x, hx, hvx⟩ := List.mem_flatMap.mp hv
        have hna := fieldVal (JTree.arr xs) hl (by simp)
        cases hna with
        | arr _ _ h2 =>
          have hx2 := h2 x hx
          cases x with
          | null => simp [mapCalls] at hvx
          | leaf w => exact ih _ (noNullArrElem_spread _ hx2) v hvx
          | arr ys => exact ih _ (noNullArrElem_spread _ hx2) v hvx
          | obj g => exact ih _ (noNullArrElem_spread _ hx2) v hvx
      | leaf w =>
        rw [goCalls_cons_leaf s s2 r2 fields w hl] at hv
        exact ih [] (by simp) v hv
      | obj g =>
        rw [goCalls_cons_obj s s2 r2 fields g hl] at hv
        have hna := fieldVal (JTree.obj g) hl (by simp)
        cases hna with
        | obj _ h2 => exact ih g h2 v hv

/-- C8 counterexample: the transform IS invoked with a null argument when an
array at the final path segment contains a null element — the code maps the
transform over every element of the array (src/index.ts line 123), nulls
included: the argument list contains null, and a transform that can see null
rewrites the output. -/
theorem c8_counterexample :
    mapCalls (JTree.obj [("a", JTree.arr [JTree.null])]) ["a"] = [JTree.null] ∧
    mapScalar (JTree.obj [("a", JTree.arr [JTree.null])]) ["a"]
        (fun v => match v with | JTree.null => JTree.leaf "sawNull" | w => w) =
      JTree.obj [("a", JTree.arr [JTree.leaf "sawNull"])] :=
  ⟨rfl, rfl⟩

/-- C8 (amended): the mapper never feeds the transform a null or absent
argument, provided no array inside the data carries a null element; when the
final-segment value is an array, the transform is applied to exactly its
elements (which the proviso makes non-null).  Without the proviso a null
array element is passed through to the transform (see the counterexample). -/
theorem c8_transform_not_null (d : JTree) (p : List String) (h : NoNullArrElem d) :
    (mapCalls d p).all (fun v => !v.isNull) = true := by
  rw [List.all_eq_true]
  intro v hv
  have hnn : v ≠ JTree.null := by
    cases d with
    | null => simp [mapCalls] at hv
    | leaf w => exact goCalls_no_null p _ (noNullArrElem_spread _ h) v hv
    | arr xs => exact goCalls_no_null p _ (noNullArrElem_spread _ h) v hv
    | obj fs => exact goCalls_no_null p _ (noNullArrElem_spread _ h) v hv
  cases v <;> simp [JTree.isNull]
  exact hnn rfl

theorem c8_transform_not_null_w :
    (mapCalls (JTree.obj [("list", JTree.arr [JTree.leaf "a", JTree.leaf "a"])]) ["list"]).all
      (fun v => !v.isNull) = true := by
  refine c8_transform_not_null _ _ (NoNullArrElem.obj _ ?_)
  intro e he
  simp only [List.mem_singleton] at he
  rw [he]
  refine NoNullArrElem.arr _ (fun x hx => ?_) (fun x hx => ?_) <;>
    (have hx2 : x = JTree.leaf "a" := by
      rcases List.mem_cons.mp hx with h2 | h2
      · exact h2
      · exact List.mem_singleton.mp h2)
  · rw [hx2]; simp
  · rw [hx2]; exact NoNullArrElem.leaf "a"

/-- C10: a non-null array root is spread into a plain index-keyed object —
`mapScalar` on an array root returns an object (never an array) whose fields
are the array's indices as strings; in the nested-list situation (an array
element of an array met at a non-final segment) the inner array is likewise
spread into an index-keyed object rather than being traversed transparently,
and the transform is not applied through it. -/
theorem c10_array_root_spread :
    (∀ (xs : List JTree) (p : List String) (t : JTree → JTree),
      mapScalar (JTree.arr xs) p t =
        JTree.obj (mapGo t p (xs.enum.map (fun e => (toString e.1, e.2)))) ∧
      (mapScalar (JTree.arr xs) p t).isObj = true) ∧
    (∀ t : JTree → JTree,
      mapScalar (JTree.obj [("a", JTree.arr [JTree.arr [JTree.leaf "x"]])]) ["a", "b"] t =
        JTree.obj [("a", JTree.arr [JTree.obj [("0", JTree.leaf "x")]])] ∧
      mapCalls (JTree.obj [("a", JTree.arr [JTree.arr [JTree.leaf "x"]])]) ["a", "b"] = []) :=
  ⟨fun xs p t => ⟨rfl, rfl⟩, fun t => ⟨rfl, rfl⟩⟩

theorem length_filter_lt_of_witness {α : Type} (p q : α → Bool) (l : List α)
    (himp : ∀ x, q x = true → p x = true) (n : α) (hn : n ∈ l) (hp : p n = true)
    (hq : q n = false) : (l.filter q).length < (l.filter p).length := by
  induction l with
  | nil => cases hn
  | cons x rest ih =>
    have hle : (rest.filter q).length ≤ (rest.filter p).length :=
      (List.monotone_filter_right rest (fun a ha => himp a ha)).length_le
    rcases List.mem_cons.mp hn with h | h
    · subst h
      rw [List.filter_cons_of_neg (by simp [hq]), List.filter_cons_of_pos hp]
      exact Nat.lt_succ_of_le hle
    · by_cases hqx : q x = true
      · rw [List.filter_cons_of_pos hqx, List.filter_cons_of_pos (himp x hqx)]
        exact Nat.succ_lt_succ (ih h)
      · rw [List.filter_cons_of_neg (by simp [hqx])]
        by_cases hpx : p x = true
        · rw [List.filter_cons_of_pos hpx]
          exact Nat.lt_succ_of_lt (ih h)
        · rw [List.filter_cons_of_neg (by simp [hpx])]
          exact ih h

/-- A GraphQL type reference: a named type possibly wrapped in list and
non-null wrappers. -/
inductive TypeRef where
  | named : String → TypeRef
  | list : TypeRef → TypeRef
  | nonNull : TypeRef → TypeRef
deriving Repr, DecidableEq

/-- `getNamedType`: the type name under all list/non-null wrappers. -/
def TypeRef.namedName : TypeRef → String
  | .named n => n
  | .list t => t.namedName
  | .nonNull t => t.namedName

/-- A named schema type definition, as the resolvers consult it: scalars and
enums carry their name; input-object and object types also carry their
declared fields (`getFields()`, in declaration order). -/
inductive TypeDef where
  | scalar : String → TypeDef
  | enum : String → TypeDef
  | inputObject : String → List (String × TypeRef) → TypeDef
  | object : String → List (String × TypeRef) → TypeDef
deriving Repr, DecidableEq

/-- The client schema: the root query type name and the named types
(`clientSchema.getType`). -/
structure Schema where
  queryTypeName : String
  types : List (String × TypeDef)
deriving Repr, DecidableEq

def lookupType (schema : Schema) (n : String) : Option TypeDef :=
  (schema.types.find? (fun e => e.1 == n)).map (fun e => e.2)

def typeNames (schema : Schema) : List String := schema.types.map (fun e => e.1)

theorem mem_typeNames_of_lookupType (schema : Schema) (n : String) (d : TypeDef)
    (h : lookupType schema n = some d) : n ∈ typeNames schema := by
  unfold lookupType at h
  cases hf : schema.types.find? (fun e => e.1 == n) with
  | none => rw [hf] at h; simp at h
  | some e =>
    have hmem := List.mem_of_find?_eq_some hf
    have heq : e.1 = n := by
      have := List.find?_some hf
      simpa using this
    rw [← heq]
    exact List.mem_map_of_mem (fun e => e.1) hmem

/-- One registered `ScalarMapping`: the optional serialize and deserialize
transforms for a scalar type name. -/
structure ScalarOpts where
  serialize : Option (JTree → JTree)
  deserialize : Option (JTree → JTree)

/-- The `scalars` table: a partial map from scalar type name to its
registered transforms (`Record<string, ScalarMapping>`). -/
def ScalarsTable := String → Option ScalarOpts

def hasSerialize (sc : ScalarsTable) (n : String) : Bool :=
  ((sc n).bind (fun o => o.serialize)).isSome

def hasDeserialize (sc : ScalarsTable) (n : String) : Bool :=
  ((sc n).bind (fun o => o.deserialize)).isSome

/-- `scalars[name]?.serialize`, defaulting to the identity when absent (the
`mapping: MapFunction = identity` default of `mapScalar`). -/
def serializeFn (sc : ScalarsTable) (n : String) : JTree → JTree :=
  match (sc n).bind (fun o => o.serialize) with
  | some f => f
  | none => fun v => v

def deserializeFn (sc : ScalarsTable) (n : String) : JTree → JTree :=
  match (sc n).bind (fun o => o.deserialize) with
  | some f => f
  | none => fun v => v

/-- `ScalarWithPath`: the name of a scalar and the path to it. -/
structure ScalarWithPath where
  name : String
  path : List String
deriving Repr, DecidableEq

/-- `resolveScalarsInInputType` (src/index.ts lines 150-183): paths to every
serializable scalar inside an input type.  A named type already in the
visited set is a cycle and contributes nothing; a scalar contributes a
single empty path when its name has a registered serialize transform; enums
contribute nothing; an input object recurses through its declared fields,
prefixing each field name, with its own name appended to the visited set.
An object type or a name absent from the schema cannot reach this function
in the source (its argument is a `GraphQLInputType` object); both resolve to
nothing here. -/
def resolveScalarsInInputType (schema : Schema) (sc : ScalarsTable)
    (inputType : TypeRef) (visited : List String) : List ScalarWithPath :=
  if hv : inputType.namedName ∈ visited then []
  else
    match hfind : lookupType schema inputType.namedName with
    | some (TypeDef.scalar n) => if hasSerialize sc n then [⟨n, []⟩] else []
    | some (TypeDef.enum _) => []
    | some (TypeDef.inputObject _ fields) =>
      fields.flatMap (fun f =>
        (resolveScalarsInInputType schema sc f.2 (visited ++ [inputType.namedName])).map
          (fun swp => ⟨swp.name, f.1 :: swp.path⟩))
    | some (TypeDef.object _ _) => []
    | none => []
termination_by ((typeNames schema).filter (fun m => !(visited.contains m))).length
decreasing_by
  refine length_filter_lt_of_witness _ _ _
    (fun x hx => ?_)
    inputType.namedName (mem_typeNames_of_lookupType schema _ _ hfind) ?_ ?_
  · simp only [Bool.not_eq_true', List.contains_eq_any_beq, List.any_eq_false] at hx ⊢
    intro a ha
    exact hx a (List.mem_append_left _ ha)
  · simp only [Bool.not_eq_true']
    simp only [List.contains_eq_any_beq, List.any_eq_false]
    intro a ha
    simp only [beq_iff_eq]
    intro haeq
    exact hv (haeq ▸ ha)
  · simp

/-- A selection inside a selection set: a field (optional alias, name,
sub-selections) or a named fragment spread. -/
inductive Selection where
  | field : Option String → String → List Selection → Selection
  | fragmentSpread : String → Selection
deriving Repr

/-- A definition of a query document: an operation (variable definitions and
selection set) or a named fragment definition (name, type condition,
selection set). -/
inductive Definition where
  | op : List (String × TypeRef) → List Selection → Definition
  | frag : String → String → List Selection → Definition
deriving Repr

structure Document where
  defs : List Definition
deriving Repr

/-- The variable definitions the document visitor encounters, in document
order. -/
def docVarDefs (doc : Document) : List (String × TypeRef) :=
  doc.defs.flatMap (fun d =>
    match d with
    | .op vars _ => vars
    | .frag _ _ _ => [])

/-- The body of the `VariableDefinition` visitor (src/index.ts lines 187-207):
the variable's named type is looked up in the schema; a missing name or a
non-input type (an object type) is skipped; otherwise the scalars of the
input type are resolved and prefixed with the variable's name. -/
def inputScalarsOfVar (schema : Schema) (sc : ScalarsTable) (vd : String × TypeRef) :
    List ScalarWithPath :=
  match lookupType schema vd.2.namedName with
  | none => []
  | some (TypeDef.object _ _) => []
  | some _ =>
    (resolveScalarsInInputType schema sc (TypeRef.named vd.2.namedName) []).map
      (fun swp => ⟨swp.name, vd.1 :: swp.path⟩)

/-- `getScalarsInInput` (src/index.ts lines 147-211). -/
def getScalarsInInput (schema : Schema) (sc : ScalarsTable) (doc : Document) :
    List ScalarWithPath :=
  (docVarDefs doc).flatMap (inputScalarsOfVar schema sc)

theorem resolveInput_visited (schema : Schema) (sc : ScalarsTable) (tref : TypeRef)
    (visited : List String) (h : tref.namedName ∈ visited) :
    resolveScalarsInInputType schema sc tref visited = [] := by
  rw [resolveScalarsInInputType]
  simp [h]

theorem resolveInput_scalar (schema : Schema) (sc : ScalarsTable) (tref : TypeRef)
    (visited : List String) (n : String) (h1 : tref.namedName ∉ visited)
    (h2 : lookupType schema tref.namedName = some (TypeDef.scalar n)) :
    resolveScalarsInInputType schema sc tref visited =
      if hasSerialize sc n then [⟨n, []⟩] else [] := by
  rw [resolveScalarsInInputType]
  simp only [h1, dif_neg, not_false_iff]
  split <;> simp_all

theorem resolveInput_enum (schema : Schema) (sc : ScalarsTable) (tref : TypeRef)
    (visited : List String) (n : String) (h1 : tref.namedName ∉ visited)
    (h2 : lookupType schema tref.namedName = some (TypeDef.enum n)) :
    resolveScalarsInInputType schema sc tref visited = [] := by
  rw [resolveScalarsInInputType]
  simp only [h1, dif_neg, not_false_iff]
  split <;> simp_all

theorem resolveInput_inputObject (schema : Schema) (sc : ScalarsTable) (tref : TypeRef)
    (visited : List String) (nm : String) (fields : List (String × TypeRef))
    (h1 : tref.namedName ∉ visited)
    (h2 : lookupType schema tref.namedName = some (TypeDef.inputObject nm fields)) :
    resolveScalarsInInputType schema sc tref visited =
      fields.flatMap (fun f =>
        (resolveScalarsInInputType schema sc f.2 (visited ++ [tref.namedName])).map
          (fun swp => ⟨swp.name, f.1 :: swp.path⟩)) := by
  rw [resolveScalarsInInputType]
  simp only [h1, dif_neg, not_false_iff]
  split <;> simp_all

/-- C2: per variable definition, the input resolver emits exactly one path
`[variableName]` for a scalar named type with a registered serialize
transform; recurses over the declared fields of an input-object named type,
prefixing the variable name and then the field name onto every resulting
path; emits nothing for enums and for scalars without a registered
serialize; and every emitted path is non-empty, starting with the
variable's name. -/
theorem c2_input_resolver :
    (∀ (schema : Schema) (sc : ScalarsTable) (v : String) (tref : TypeRef) (n : String),
      lookupType schema tref.namedName = some (TypeDef.scalar n) →
      hasSerialize sc n = true →
      inputScalarsOfVar schema sc (v, tref) = [⟨n, [v]⟩]) ∧
    (∀ (schema : Schema) (sc : ScalarsTable) (v : String) (tref : TypeRef) (nm : String)
        (fields : List (String × TypeRef)),
      lookupType schema tref.namedName = some (TypeDef.inputObject nm fields) →
      inputScalarsOfVar schema sc (v, tref) =
        fields.flatMap (fun f =>
          (resolveScalarsInInputType schema sc f.2 [tref.namedName]).map
            (fun swp => ⟨swp.name, v :: f.1 :: swp.path⟩))) ∧
    (∀ (schema : Schema) (sc : ScalarsTable) (v : String) (tref : TypeRef) (n : String),
      lookupType schema tref.namedName = some (TypeDef.enum n) →
      inputScalarsOfVar schema sc (v, tref) = []) ∧
    (∀ (schema : Schema) (sc : ScalarsTable) (v : String) (tref : TypeRef) (n : String),
      lookupType schema tref.namedName = some (TypeDef.scalar n) →
      hasSerialize sc n = false →
      inputScalarsOfVar schema sc (v, tref) = []) ∧
    (∀ (schema : Schema) (sc : ScalarsTable) (doc : Document) (swp : ScalarWithPath),
      swp ∈ getScalarsInInput schema sc doc →
      ∃ vd ∈ docVarDefs doc, ∃ rest, swp.path = vd.1 :: rest) := by
  have hnamed : ∀ tref : TypeRef, (TypeRef.named tref.namedName).namedName = tref.namedName :=
    fun _ => rfl
  refine ⟨?_, ?_, ?_, ?_, ?_⟩
  · intro schema sc v tref n hl hs
    unfold inputScalarsOfVar
    simp only [hl]
    rw [resolveInput_scalar schema sc (TypeRef.named tref.namedName) [] n
      (by simp) (by rw [hnamed]; exact hl)]
    simp [hs]
  · intro schema sc v tref nm fields hl
    unfold inputScalarsOfVar
    simp only [hl]
    rw [resolveInput_inputObject schema sc (TypeRef.named tref.namedName) [] nm fields
      (by simp) (by rw [hnamed]; exact hl)]
    rw [List.map_flatMap]
    simp only [hnamed, List.nil_append, List.map_map]
    rfl
  · intro schema sc v tref n hl
    unfold inputScalarsOfVar
    simp only [hl]
    rw [resolveInput_enum schema sc (TypeRef.named tref.namedName) [] n
      (by simp) (by rw [hnamed]; exact hl)]
    simp
  · intro schema sc v tref n hl hs
    unfold inputScalarsOfVar
    simp only [hl]
    rw [resolveInput_scalar schema sc (TypeRef.named tref.namedName) [] n
      (by simp) (by rw [hnamed]; exact hl)]
    simp [hs]
  · intro schema sc doc swp hmem
    unfold getScalarsInInput at hmem
    obtain ⟨vd, hvd, hin⟩ := List.mem_flatMap.mp hmem
    refine ⟨vd, hvd, ?_⟩
    unfold inputScalarsOfVar at hin
    cases hl : lookupType schema vd.2.namedName with
    | none => rw [hl] at hin; simp at hin
    | some td =>
      rw [hl] at hin
      cases td with
      | object a b => simp at hin
      | scalar n =>
        obtain ⟨w, _, hw⟩ := List.mem_map.mp hin
        exact ⟨w.path, by rw [← hw]⟩
      | enum n =>
        obtain ⟨w, _, hw⟩ := List.mem_map.mp hin
        exact ⟨w.path, by rw [← hw]⟩
      | inputObject nm fields =>
        obtain ⟨w, _, hw⟩ := List.mem_map.mp hin
        exact ⟨w.path, by rw [← hw]⟩

/-- A record collected by the document visitor (`NodeWithPath`): a scalar
occurrence (scalar type name, response-key path) or a fragment spread
occurrence (target fragment name, response-key path). -/
inductive NodeWithPath where
  | scalar : String → List String → NodeWithPath
  | fragment : String → List String → NodeWithPath
deriving Repr, DecidableEq

/-- The declared type of field `fieldName` on object type `parent`, as the
`TypeInfo` cursor infers it. -/
def fieldTypeRef (schema : Schema) (parent : String) (fieldName : String) : Option TypeRef :=
  match lookupType schema parent with
  | some (TypeDef.object _ fields) =>
    (fields.find? (fun e => e.1 == fieldName)).map (fun e => e.2)
  | _ => none

/-- The `Field` and `FragmentSpread` visitors (src/index.ts lines 220-268)
over one selection set: `parent` is the named type the `TypeInfo` cursor has
at this selection set (none once it failed to resolve), `pref` the
response-key path of the enclosing fields (`getPathAndFragmentName`, alias
when present, name otherwise).  A field of scalar inferred type with a
registered deserialize transform records a scalar occurrence; children are
visited under the field's named type; a fragment spread records a fragment
occurrence at the current path. -/
def collectSels (schema : Schema) (sc : ScalarsTable) :
    Option String → List String → List Selection → List NodeWithPath
  | _, _, [] => []
  | parent, pref, Selection.field al n subs :: rest =>
    let key := al.getD n
    let ftr := parent.bind (fun p => fieldTypeRef schema p n)
    let here : List NodeWithPath :=
      match ftr.bind (fun tr => lookupType schema tr.namedName) with
      | some (TypeDef.scalar sn) =>
        if hasDeserialize sc sn then [NodeWithPath.scalar sn (pref ++ [key])] else []
      | _ => []
    here ++ collectSels schema sc (ftr.map (fun tr => tr.namedName)) (pref ++ [key]) subs
      ++ collectSels schema sc parent pref rest
  | parent, pref, Selection.fragmentSpread f :: rest =>
    NodeWithPath.fragment f pref :: collectSels schema sc parent pref rest

/-- `nodesInFragments[fname] = (nodesInFragments[fname] ?? []).push(...)`:
append to the entry of `fname`, creating it at the end when absent. -/
def addFragNodes (nf : List (String × List NodeWithPath)) (fname : String)
    (nodes : List NodeWithPath) : List (String × List NodeWithPath) :=
  if nf.any (fun e => e.1 == fname) then
    nf.map (fun e => if e.1 == fname then (e.1, e.2 ++ nodes) else e)
  else nf ++ [(fname, nodes)]

/-- The collection pass of `getScalarsInQuery`: walking the document's
definitions in order, fields and spreads inside an operation go to
`nodesInQuery` (first component), those inside a fragment definition go to
`nodesInFragments` under the fragment's name (second component); an
operation's cursor starts at the root query type, a fragment's at its type
condition. -/
def collectDoc (schema : Schema) (sc : ScalarsTable) (doc : Document) :
    List NodeWithPath × List (String × List NodeWithPath) :=
  doc.defs.foldl (fun acc d =>
    match d with
    | Definition.op _ sels =>
      (acc.1 ++ collectSels schema sc (some schema.queryTypeName) [] sels, acc.2)
    | Definition.frag fname cond sels =>
      (acc.1, addFragNodes acc.2 fname (collectSels schema sc (some cond) [] sels)))
    ([], [])

def fragNodes (nf : List (String × List NodeWithPath)) (f : String) : List NodeWithPath :=
  match nf.find? (fun e => e.1 == f) with
  | some e => e.2
  | none => []

def memoLookup (memo : List (String × List ScalarWithPath)) (f : String) :
    Option (List ScalarWithPath) :=
  (memo.find? (fun e => e.1 == f)).map (fun e => e.2)

def memoSet (memo : List (String × List ScalarWithPath)) (f : String)
    (v : List ScalarWithPath) : List (String × List ScalarWithPath) :=
  memo ++ [(f, v)]

/-- Every fragment name the resolution can be asked about from inside the
node lists: the keys of `nodesInFragments` and every spread target recorded
in its values. -/
def allFragNames (nf : List (String × List NodeWithPath)) : List String :=
  nf.map (fun e => e.1) ++
    nf.flatMap (fun e => e.2.filterMap (fun nd =>
      match nd with
      | NodeWithPath.fragment g _ => some g
      | _ => none))

def countUnvisited (nf : List (String × List NodeWithPath)) (visited : List String) : Nat :=
  ((allFragNames nf).filter (fun m => !(visited.contains m))).length

theorem mem_keys_of_fragNodes_ne_nil (nf : List (String × List NodeWithPath)) (f : String)
    (h : fragNodes nf f ≠ []) : f ∈ allFragNames nf := by
  unfold fragNodes at h
  cases hf : nf.find? (fun e => e.1 == f) with
  | none => rw [hf] at h; simp at h
  | some e =>
    have hmem := List.mem_of_find?_eq_some hf
    have heq : e.1 = f := by simpa using List.find?_some hf
    unfold allFragNames
    refine List.mem_append_left _ ?_
    rw [← heq]
    exact List.mem_map_of_mem (fun e => e.1) hmem

theorem countUnvisited_lt (nf : List (String × List NodeWithPath)) (visited : List String)
    (f : String) (hmem : f ∈ allFragNames nf) (hnv : f ∉ visited) :
    countUnvisited nf (visited ++ [f]) < countUnvisited nf visited := by
  refine length_filter_lt_of_witness _ _ _ (fun x hx => ?_) f hmem ?_ ?_
  · simp only [Bool.not_eq_true', List.contains_eq_any_beq, List.any_eq_false] at hx ⊢
    intro a ha
    exact hx a (List.mem_append_left _ ha)
  · simp only [Bool.not_eq_true', List.contains_eq_any_beq, List.any_eq_false]
    intro a ha
    simp only [beq_iff_eq]
    intro haeq
    exact hnv (haeq ▸ ha)
  · simp

mutual

/-- `resolveScalarsInFragment` (src/index.ts lines 273-305): resolve one
fragment name to scalar paths.  A memoized name returns its cached value; a
name on the visited stack is a cycle and resolves to nothing (without
writing the cache); otherwise the fragment's collected nodes are resolved
with the name pushed onto the visited stack, and the result is cached.
The memo cache is threaded in state-passing style (second component). -/
def resolveFrag (nf : List (String × List NodeWithPath))
    (memo : List (String × List ScalarWithPath)) (visited : List String) (f : String) :
    List ScalarWithPath × List (String × List ScalarWithPath) :=
  match memoLookup memo f with
  | some r => (r, memo)
  | none =>
    if f ∈ visited then ([], memo)
    else
      match hn : fragNodes nf f with
      | [] => ([], memoSet memo f [])
      | nd :: nds =>
        let res := resolveNodes nf memo (visited ++ [f]) (nd :: nds)
        (res.1, memoSet res.2 f res.1)
termination_by (countUnvisited nf visited, 0, 0)
decreasing_by
  refine Prod.Lex.left _ _ ?_
  exact countUnvisited_lt nf visited f
    (mem_keys_of_fragNodes_ne_nil nf f (by rw [hn]; simp)) (by assumption)

/-- The loop body shared by the top level (src/index.ts lines 308-322) and
`resolveScalarsInFragment`'s own node loop (lines 287-302): scalar nodes
contribute their path; fragment nodes contribute the referenced fragment's
resolution with the local spread path prefixed; the memo cache is threaded
left to right. -/
def resolveNodes (nf : List (String × List NodeWithPath))
    (memo : List (String × List ScalarWithPath)) (visited : List String) :
    List NodeWithPath → List ScalarWithPath × List (String × List ScalarWithPath)
  | [] => ([], memo)
  | NodeWithPath.scalar n p :: rest =>
    let r := resolveNodes nf memo visited rest
    (⟨n, p⟩ :: r.1, r.2)
  | NodeWithPath.fragment g p :: rest =>
    let sub := resolveFrag nf memo visited g
    let r := resolveNodes nf sub.2 visited rest
    (sub.1.map (fun swp => ⟨swp.name, p ++ swp.path⟩) ++ r.1, r.2)
termination_by nodes => (countUnvisited nf visited, 1, nodes.length)
decreasing_by
  · refine Prod.Lex.right _ ?_
    refine Prod.Lex.right _ ?_
    simp
  · refine Prod.Lex.right _ ?_
    exact Prod.Lex.left _ _ (by norm_num)
  · refine Prod.Lex.right _ ?_
    refine Prod.Lex.right _ ?_
    simp

end

/-- `getScalarsInQuery` (src/index.ts lines 213-324): collect the document's
nodes, then resolve the top-level ones with a fresh memo cache and an empty
visited stack. -/
def getScalarsInQuery (schema : Schema) (sc : ScalarsTable) (doc : Document) :
    List ScalarWithPath :=
  (resolveNodes (collectDoc schema sc doc).2 [] [] (collectDoc schema sc doc).1).1

/-- An operation as the exchange sees it: its query document and its
variables (`vars` here; `variables` is reserved in Lean). -/
structure Operation where
  query : Document
  vars : JTree

structure OperationResult where
  operation : Operation
  data : JTree

/-- The outgoing half of `scalarExchange` (src/index.ts lines 329-343): when
the document has no input scalar paths the operation passes through
untouched; otherwise each path rewrites `operation.variables` in turn with
that scalar's serialize transform (identity when none is registered). -/
def processOperation (schema : Schema) (sc : ScalarsTable) (op : Operation) : Operation :=
  let scalarsInInputs := getScalarsInInput schema sc op.query
  if scalarsInInputs.length = 0 then op
  else
    let newVars := scalarsInInputs.foldl
      (fun vs swp => mapScalar vs swp.path (serializeFn sc swp.name)) op.vars
    { op with vars := newVars }

/-- The incoming half of `scalarExchange` (src/index.ts lines 347-364): a
result without data passes through untouched; so does one whose document has
no output scalar paths; otherwise each path rewrites `args.data` in turn
with that scalar's deserialize transform. -/
def processResult (schema : Schema) (sc : ScalarsTable) (r : OperationResult) :
    OperationResult :=
  match r.data with
  | JTree.null => r
  | _ =>
    let scalarsInQuery := getScalarsInQuery schema sc r.operation.query
    if scalarsInQuery.length = 0 then r
    else
      let newData := scalarsInQuery.foldl
        (fun d swp => mapScalar d swp.path (deserializeFn sc swp.name)) r.data
      { r with data := newData }

theorem resolveNodes_nil (nf : List (String × List NodeWithPath))
    (memo : List (String × List ScalarWithPath)) (visited : List String) :
    resolveNodes nf memo visited [] = ([], memo) := by
  rw [resolveNodes]

theorem resolveNodes_scalar (nf : List (String × List NodeWithPath))
    (memo : List (String × List ScalarWithPath)) (visited : List String)
    (n : String) (p : List String) (rest : List NodeWithPath) :
    resolveNodes nf memo visited (NodeWithPath.scalar n p :: rest) =
      ((⟨n, p⟩ : ScalarWithPath) :: (resolveNodes nf memo visited rest).1,
       (resolveNodes nf memo visited rest).2) := by
  rw [resolveNodes]

theorem resolveNodes_frag (nf : List (String × List NodeWithPath))
    (memo : List (String × List ScalarWithPath)) (visited : List String)
    (g : String) (p : List String) (rest : List NodeWithPath) :
    resolveNodes nf memo visited (NodeWithPath.fragment g p :: rest) =
      (((resolveFrag nf memo visited g).1.map (fun swp => ⟨swp.name, p ++ swp.path⟩)) ++
         (resolveNodes nf (resolveFrag nf memo visited g).2 visited rest).1,
       (resolveNodes nf (resolveFrag nf memo visited g).2 visited rest).2) := by
  rw [resolveNodes]

theorem resolveFrag_memo_hit (nf : List (String × List NodeWithPath))
    (memo : List (String × List ScalarWithPath)) (visited : List String) (f : String)
    (r : List ScalarWithPath) (h : memoLookup memo f = some r) :
    resolveFrag nf memo visited f = (r, memo) := by
  rw [resolveFrag, h]

theorem resolveFrag_visited (nf : List (String × List NodeWithPath))
    (memo : List (String × List ScalarWithPath)) (visited : List String) (f : String)
    (h1 : memoLookup memo f = none) (h2 : f ∈ visited) :
    resolveFrag nf memo visited f = ([], memo) := by
  rw [resolveFrag, h1]
  simp [h2]

theorem resolveFrag_no_nodes (nf : List (String × List NodeWithPath))
    (memo : List (String × List ScalarWithPath)) (visited : List String) (f : String)
    (h1 : memoLookup memo f = none) (h2 : f ∉ visited) (h3 : fragNodes nf f = []) :
    resolveFrag nf memo visited f = ([], memoSet memo f []) := by
  rw [resolveFrag, h1]
  simp only [h2, if_false, ite_false]
  split <;> simp_all

theorem resolveFrag_run (nf : List (String × List NodeWithPath))
    (memo : List (String × List ScalarWithPath)) (visited : List String) (f : String)
    (nd : NodeWithPath) (nds : List NodeWithPath)
    (h1 : memoLookup memo f = none) (h2 : f ∉ visited) (h3 : fragNodes nf f = nd :: nds) :
    resolveFrag nf memo visited f =
      ((resolveNodes nf memo (visited ++ [f]) (nd :: nds)).1,
       memoSet (resolveNodes nf memo (visited ++ [f]) (nd :: nds)).2 f
         (resolveNodes nf memo (visited ++ [f]) (nd :: nds)).1) := by
  rw [resolveFrag, h1]
  simp only [h2, if_false, ite_false]
  split <;> simp_all

theorem resolveFrag_run2 (nf : List (String × List NodeWithPath))
    (memo : List (String × List ScalarWithPath)) (visited : List String) (f : String)
    (h1 : memoLookup memo f = none) (h2 : f ∉ visited) (h3 : fragNodes nf f ≠ []) :
    resolveFrag nf memo visited f =
      ((resolveNodes nf memo (visited ++ [f]) (fragNodes nf f)).1,
       memoSet (resolveNodes nf memo (visited ++ [f]) (fragNodes nf f)).2 f
         (resolveNodes nf memo (visited ++ [f]) (fragNodes nf f)).1) := by
  cases hn : fragNodes nf f with
  | nil => exact absurd hn h3
  | cons nd nds => rw [resolveFrag_run nf memo visited f nd nds h1 h2 hn]

def pushNode (q : List String) : NodeWithPath → NodeWithPath
  | NodeWithPath.scalar n p => NodeWithPath.scalar n (q ++ p)
  | NodeWithPath.fragment g p => NodeWithPath.fragment g (q ++ p)

/-- Replace every `.fragment fname` node by `fN` prefixed with the spread's
local path, keeping all other nodes. -/
def expandF (fname : String) (fN : List NodeWithPath) : List NodeWithPath → List NodeWithPath
  | [] => []
  | NodeWithPath.scalar n p :: rest => NodeWithPath.scalar n p :: expandF fname fN rest
  | NodeWithPath.fragment g p :: rest =>
    if g = fname then fN.map (pushNode p) ++ expandF fname fN rest
    else NodeWithPath.fragment g p :: expandF fname fN rest

def scalarsOf : List NodeWithPath → List ScalarWithPath
  | [] => []
  | NodeWithPath.scalar n p :: rest => ⟨n, p⟩ :: scalarsOf rest
  | NodeWithPath.fragment _ _ :: rest => scalarsOf rest

def scalarsOnly (nodes : List NodeWithPath) : Bool :=
  nodes.all (fun nd => match nd with
    | NodeWithPath.scalar _ _ => true
    | NodeWithPath.fragment _ _ => false)

/-- The selections contain no fragment spread at any depth. -/
def spreadFreeSels : List Selection → Bool
  | [] => true
  | Selection.field _ _ subs :: rest => spreadFreeSels subs && spreadFreeSels rest
  | Selection.fragmentSpread _ :: rest => false

/-- Textually inline fragment `fname` (body `fsels`): every spread of `fname`
is replaced by `fsels` in place; other spreads and all fields are kept,
recursing under fields. -/
def inlineIn (fname : String) (fsels : List Selection) : List Selection → List Selection
  | [] => []
  | Selection.field al n subs :: rest =>
    Selection.field al n (inlineIn fname fsels subs) :: inlineIn fname fsels rest
  | Selection.fragmentSpread g :: rest =>
    if g = fname then fsels ++ inlineIn fname fsels rest
    else Selection.fragmentSpread g :: inlineIn fname fsels rest

/-- Every spread of `fname` in the selections sits where the type cursor is
exactly `some cond` (the fragment's type condition), so that inlining its
body there collects under the same parent type. -/
def spreadsAt (schema : Schema) (fname cond : String) :
    Option String → List Selection → Bool
  | _, [] => true
  | parent, Selection.field _ n subs :: rest =>
    let ftr := parent.bind (fun p => fieldTypeRef schema p n)
    spreadsAt schema fname cond (ftr.map (fun tr => tr.namedName)) subs &&
      spreadsAt schema fname cond parent rest
  | parent, Selection.fragmentSpread g :: rest =>
    (if g = fname then parent == some cond else true) && spreadsAt schema fname cond parent rest

theorem collectSels_append (schema : Schema) (sc : ScalarsTable) (parent : Option String)
    (pref : List String) (a b : List Selection) :
    collectSels schema sc parent pref (a ++ b) =
      collectSels schema sc parent pref a ++ collectSels schema sc parent pref b := by
  induction a with
  | nil => simp [collectSels]
  | cons sel atl ih =>
    cases sel with
    | field al n subs =>
      simp only [List.cons_append, collectSels, ih, List.append_assoc]
    | fragmentSpread g =>
      simp only [List.cons_append, collectSels, ih]

theorem collectSels_push (schema : Schema) (sc : ScalarsTable) (parent : Option String)
    (pref : List String) (sels : List Selection) :
    ∀ q : List String,
      collectSels schema sc parent (q ++ pref) sels =
        (collectSels schema sc parent pref sels).map (pushNode q) := by
  induction parent, pref, sels using collectSels.induct schema sc with
  | case1 parent pref => intro q; simp [collectSels]
  | case2 parent pref al n subs rest key ftr ih1 ih2 =>
    intro q
    have hsubs : collectSels schema sc
        (Option.map (fun tr => tr.namedName) (parent.bind fun p => fieldTypeRef schema p n))
        (q ++ (pref ++ [al.getD n])) subs =
        List.map (pushNode q) (collectSels schema sc
          (Option.map (fun tr => tr.namedName) (parent.bind fun p => fieldTypeRef schema p n))
          (pref ++ [al.getD n]) subs) := ih1 q
    have hrest := ih2 q
    simp only [collectSels, List.map_append]
    simp only [List.append_assoc] at hsubs ⊢
    rw [hsubs, hrest]
    congr 1
    cases hty : (parent.bind (fun p => fieldTypeRef schema p n)).bind
        (fun tr => lookupType schema tr.namedName) with
    | none => simp [hty]
    | some td =>
      cases td with
      | scalar sn =>
        by_cases hd : hasDeserialize sc sn = true
        · simp [hty, hd, pushNode, List.append_assoc]
        · simp [hty, hd]
      | enum e => simp [hty]
      | inputObject a b => simp [hty]
      | object a b => simp [hty]
  | case3 parent pref g rest ih =>
    intro q
    simp only [collectSels, List.map_cons, pushNode, ih q]

theorem scalarsOnly_append (a b : List NodeWithPath) :
    scalarsOnly (a ++ b) = (scalarsOnly a && scalarsOnly b) := by
  simp [scalarsOnly, List.all_append]

theorem collectSels_spreadFree (schema : Schema) (sc : ScalarsTable) (parent : Option String)
    (pref : List String) (sels : List Selection) (h : spreadFreeSels sels = true) :
    scalarsOnly (collectSels schema sc parent pref sels) = true := by
  induction parent, pref, sels using collectSels.induct schema sc with
  | case1 parent pref => simp [collectSels, scalarsOnly]
  | case2 parent pref al n subs rest key ftr ih1 ih2 =>
    simp only [spreadFreeSels, Bool.and_eq_true] at h
    have hsubs : scalarsOnly (collectSels schema sc
        (Option.map (fun tr => tr.namedName) (parent.bind fun p => fieldTypeRef schema p n))
        (pref ++ [al.getD n]) subs) = true := ih1 h.1
    have hrest : scalarsOnly (collectSels schema sc parent pref rest) = true := ih2 h.2
    have hhere : scalarsOnly (match (parent.bind (fun p => fieldTypeRef schema p n)).bind
        (fun tr => lookupType schema tr.namedName) with
      | some (TypeDef.scalar sn) =>
        if hasDeserialize sc sn then [NodeWithPath.scalar sn (pref ++ [al.getD n])] else []
      | _ => []) = true := by
      cases hty : (parent.bind (fun p => fieldTypeRef schema p n)).bind
          (fun tr => lookupType schema tr.namedName) with
      | none => simp [scalarsOnly]
      | some td =>
        cases td with
        | scalar sn =>
          by_cases hd : hasDeserialize sc sn = true
          · simp [hd, scalarsOnly]
          · simp [hd, scalarsOnly]
        | enum e => simp [scalarsOnly]
        | inputObject a b => simp [scalarsOnly]
        | object a b => simp [scalarsOnly]
    simp only [collectSels, scalarsOnly_append, Bool.and_eq_true]
    exact ⟨⟨hhere, hsubs⟩, hrest⟩
  | case3 parent pref g rest ih =>
    simp [spreadFreeSels] at h

theorem expandF_append (fname : String) (fN : List NodeWithPath) (a b : List NodeWithPath) :
    expandF fname fN (a ++ b) = expandF fname fN a ++ expandF fname fN b := by
  induction a with
  | nil => simp [expandF]
  | cons nd atl ih =>
    cases nd with
    | scalar n p => simp [expandF, ih]
    | fragment g p =>
      by_cases hg : g = fname <;> simp [expandF, hg, ih]

/-- Collecting an inlined selection set: every fragment node of `fname` in the
original collection is replaced in place by the fragment's own collection
(under its type condition) pushed to the spread's path, provided every
spread of `fname` sits at type-cursor `some cond`. -/
theorem collectSels_inline (schema : Schema) (sc : ScalarsTable) (fname cond : String)
    (fsels : List Selection) (parent : Option String) (pref : List String)
    (sels : List Selection) (hsp : spreadsAt schema fname cond parent sels = true) :
    collectSels schema sc parent pref (inlineIn fname fsels sels) =
      expandF fname (collectSels schema sc (some cond) [] fsels)
        (collectSels schema sc parent pref sels) := by
  induction parent, pref, sels using collectSels.induct schema sc with
  | case1 parent pref => simp [collectSels, inlineIn, expandF]
  | case2 parent pref al n subs rest key ftr ih1 ih2 =>
    simp only [spreadsAt, Bool.and_eq_true] at hsp
    have hsubs : collectSels schema sc
        (Option.map (fun tr => tr.namedName) (parent.bind fun p => fieldTypeRef schema p n))
        (pref ++ [al.getD n]) (inlineIn fname fsels subs) =
        expandF fname (collectSels schema sc (some cond) [] fsels)
          (collectSels schema sc
            (Option.map (fun tr => tr.namedName) (parent.bind fun p => fieldTypeRef schema p n))
            (pref ++ [al.getD n]) subs) := ih1 hsp.1
    have hrest := ih2 hsp.2
    simp only [inlineIn, collectSels, hsubs, hrest, expandF_append]
    congr 1
    cases hty : (parent.bind (fun p => fieldTypeRef schema p n)).bind
        (fun tr => lookupType schema tr.namedName) with
    | none => simp [expandF]
    | some td =>
      cases td with
      | scalar sn =>
        by_cases hd : hasDeserialize sc sn = true
        · simp [hd, expandF]
        · simp [hd, expandF]
      | enum e => simp [expandF]
      | inputObject a b => simp [expandF]
      | object a b => simp [expandF]
  | case3 parent pref g rest ih =>
    simp only [spreadsAt, Bool.and_eq_true] at hsp
    have hrest := ih hsp.2
    by_cases hg : g = fname
    · subst hg
      have hpar : parent = some cond := by
        have h2 := hsp.1
        simp only [if_pos rfl] at h2
        exact eq_of_beq h2
      subst hpar
      have hfs : collectSels schema sc (some cond) pref fsels =
          List.map (pushNode pref) (collectSels schema sc (some cond) [] fsels) := by
        have h2 := collectSels_push schema sc (some cond) [] fsels pref
        simpa using h2
      rw [show inlineIn g fsels (Selection.fragmentSpread g :: rest) =
        fsels ++ inlineIn g fsels rest from by simp [inlineIn]]
      rw [collectSels_append, hfs, hrest]
      simp only [collectSels, expandF, if_pos rfl, if_true]
    · simp only [inlineIn, if_neg hg, collectSels, expandF, hrest]

theorem memoLookup_memoSet_of_none (m : List (String × List ScalarWithPath)) (f : String)
    (v : List ScalarWithPath) (h : memoLookup m f = none) :
    memoLookup (memoSet m f v) f = some v := by
  induction m with
  | nil => simp [memoLookup, memoSet, List.find?]
  | cons e rest ih =>
    by_cases he : e.1 = f
    · exact absurd h (by simp [memoLookup, List.find?, show (e.1 == f) = true from by simp [he]])
    · have h2 : memoLookup rest f = none := by
        simp only [memoLookup, List.find?, show (e.1 == f) = false from by simp [he]] at h
        exact h
      have h3 := ih h2
      simp only [memoLookup, memoSet, List.cons_append, List.find?,
        show (e.1 == f) = false from by simp [he]] at h3 ⊢
      exact h3

theorem memoLookup_memoSet_ne (m : List (String × List ScalarWithPath)) (f g : String)
    (v : List ScalarWithPath) (h : g ≠ f) :
    memoLookup (memoSet m f v) g = memoLookup m g := by
  induction m with
  | nil =>
    simp [memoLookup, memoSet, List.find?, show (f == g) = false from by
      simp only [beq_eq_false_iff_ne, ne_eq]
      exact fun e => h e.symm]
  | cons e rest ih =>
    by_cases he : e.1 = g
    · simp [memoLookup, memoSet, List.find?, show (e.1 == g) = true from by simp [he]]
    · simp only [memoLookup, memoSet, List.cons_append, List.find?,
        show (e.1 == g) = false from by simp [he]] at ih ⊢
      exact ih

/-- The memo-cache relation between the resolution of the original document
(`m1`) and of the inlined document (`m2`): entries for other fragments
agree, the inlined side never caches `fname`, and the original side caches
`fname` only with its fixed resolution. -/
def InvMemo (fname : String) (fScalars : List ScalarWithPath)
    (m1 m2 : List (String × List ScalarWithPath)) : Prop :=
  (∀ g, g ≠ fname → memoLookup m1 g = memoLookup m2 g) ∧
  memoLookup m2 fname = none ∧
  (∀ r, memoLookup m1 fname = some r → r = fScalars)

theorem resolveFrag_go (nf : List (String × List NodeWithPath))
    (memo : List (String × List ScalarWithPath)) (visited : List String) (f : String)
    (h1 : memoLookup memo f = none) (h2 : f ∉ visited) :
    resolveFrag nf memo visited f =
      ((resolveNodes nf memo (visited ++ [f]) (fragNodes nf f)).1,
       memoSet (resolveNodes nf memo (visited ++ [f]) (fragNodes nf f)).2 f
         (resolveNodes nf memo (visited ++ [f]) (fragNodes nf f)).1) := by
  cases hn : fragNodes nf f with
  | nil =>
    rw [resolveFrag_no_nodes nf memo visited f h1 h2 hn, resolveNodes_nil]
  | cons nd nds => rw [resolveFrag_run nf memo visited f nd nds h1 h2 hn]

theorem resolveNodes_scalars_append (nf : List (String × List NodeWithPath))
    (m : List (String × List ScalarWithPath)) (visited : List String)
    (snodes more : List NodeWithPath) (h : scalarsOnly snodes = true) :
    resolveNodes nf m visited (snodes ++ more) =
      (scalarsOf snodes ++ (resolveNodes nf m visited more).1,
       (resolveNodes nf m visited more).2) := by
  induction snodes with
  | nil => simp [resolveNodes_nil, scalarsOf]
  | cons nd tl ih =>
    cases nd with
    | scalar n p =>
      have htl : scalarsOnly tl = true := by
        simp only [scalarsOnly, List.all_cons, Bool.and_eq_true] at h
        exact h.2
      simp only [List.cons_append, resolveNodes_scalar, ih htl, scalarsOf]
    | fragment g p => simp [scalarsOnly] at h

theorem scalarsOf_map_push (p : List String) (nodes : List NodeWithPath) :
    scalarsOf (nodes.map (pushNode p)) =
      (scalarsOf nodes).map (fun swp => ⟨swp.name, p ++ swp.path⟩) := by
  induction nodes with
  | nil => simp [scalarsOf]
  | cons nd tl ih =>
    cases nd with
    | scalar n q => simp [pushNode, scalarsOf, ih]
    | fragment g q => simp [pushNode, scalarsOf, ih]

theorem scalarsOnly_map_push (p : List String) (nodes : List NodeWithPath) :
    scalarsOnly (nodes.map (pushNode p)) = scalarsOnly nodes := by
  induction nodes with
  | nil => rfl
  | cons nd tl ih =>
    cases nd with
    | scalar n q => simp [pushNode, scalarsOnly, List.all_cons] at ih ⊢; exact ih
    | fragment g q => simp [pushNode, scalarsOnly, List.all_cons]

theorem memoLookup_memoSet_self (m : List (String × List ScalarWithPath)) (g : String)
    (v : List ScalarWithPath) :
    memoLookup (memoSet m g v) g =
      (match memoLookup m g with
       | some r => some r
       | none => some v) := by
  induction m with
  | nil => simp [memoLookup, memoSet, List.find?]
  | cons e rest ih =>
    by_cases he : e.1 = g
    · simp [memoLookup, memoSet, List.find?, show (e.1 == g) = true from by simp [he]]
    · simp only [memoLookup, memoSet, List.cons_append, List.find?,
        show (e.1 == g) = false from by simp [he]] at ih ⊢
      exact ih

theorem InvMemo_memoSet (fname : String) (fS : List ScalarWithPath)
    (m1 m2 : List (String × List ScalarWithPath)) (g : String) (v : List ScalarWithPath)
    (hg : g ≠ fname) (hInv : InvMemo fname fS m1 m2) :
    InvMemo fname fS (memoSet m1 g v) (memoSet m2 g v) := by
  refine ⟨?_, ?_, ?_⟩
  · intro g2 hg2
    by_cases hgg : g2 = g
    · subst hgg
      rw [memoLookup_memoSet_self m1 g2 v, memoLookup_memoSet_self m2 g2 v, hInv.1 g2 hg2]
    · rw [memoLookup_memoSet_ne m1 g g2 v hgg, memoLookup_memoSet_ne m2 g g2 v hgg]
      exact hInv.1 g2 hg2
  · rw [memoLookup_memoSet_ne m2 g fname v (Ne.symm hg)]
    exact hInv.2.1
  · intro r hr
    rw [memoLookup_memoSet_ne m1 g fname v (Ne.symm hg)] at hr
    exact hInv.2.2 r hr

/-- Resolving the spread-free fragment itself: it always yields its own
scalar list, and caching it preserves the memo relation. -/
theorem resolveFrag_at_fname (fname : String) (fN : List NodeWithPath)
    (nf1 : List (String × List NodeWithPath))
    (hscal : scalarsOnly fN = true) (hfn1 : fragNodes nf1 fname = fN)
    (m1 m2 : List (String × List ScalarWithPath)) (visited : List String)
    (hInv : InvMemo fname (scalarsOf fN) m1 m2) (hnv : fname ∉ visited) :
    (resolveFrag nf1 m1 visited fname).1 = scalarsOf fN ∧
    InvMemo fname (scalarsOf fN) (resolveFrag nf1 m1 visited fname).2 m2 := by
  cases hm : memoLookup m1 fname with
  | some r =>
    rw [resolveFrag_memo_hit nf1 m1 visited fname r hm]
    exact ⟨hInv.2.2 r hm, hInv⟩
  | none =>
    rw [resolveFrag_go nf1 m1 visited fname hm hnv, hfn1]
    have hres := resolveNodes_scalars_append nf1 m1 (visited ++ [fname]) fN [] hscal
    rw [List.append_nil] at hres
    rw [hres]
    simp only [resolveNodes_nil, List.append_nil]
    refine ⟨trivial, ?_, ?_, ?_⟩
    · intro g hg
      rw [memoLookup_memoSet_ne m1 fname g _ hg]
      exact hInv.1 g hg
    · exact hInv.2.1
    · intro r hr
      rw [memoLookup_memoSet_of_none m1 fname _ hm] at hr
      exact (Option.some.inj hr).symm

/-- Resolving any other fragment name when no budget is left: the visited set
already exhausts every fragment name, so the per-fragment run branch is
impossible and both sides answer from the cache or the cycle guard. -/
theorem resolveFrag_rel_base (fname : String) (fN : List NodeWithPath)
    (nf1 nf2 : List (String × List NodeWithPath))
    (hnf : ∀ g, g ≠ fname → fragNodes nf2 g = expandF fname fN (fragNodes nf1 g))
    (visited : List String) (m1 m2 : List (String × List ScalarWithPath)) (g : String)
    (hg : g ≠ fname) (hInv : InvMemo fname (scalarsOf fN) m1 m2) (hnv : fname ∉ visited)
    (hk : countUnvisited nf1 visited = 0) :
    (resolveFrag nf1 m1 visited g).1 = (resolveFrag nf2 m2 visited g).1 ∧
    InvMemo fname (scalarsOf fN) (resolveFrag nf1 m1 visited g).2
      (resolveFrag nf2 m2 visited g).2 := by
  have hml : memoLookup m1 g = memoLookup m2 g := hInv.1 g hg
  cases hm : memoLookup m1 g with
  | some r =>
    rw [resolveFrag_memo_hit nf1 m1 visited g r hm,
        resolveFrag_memo_hit nf2 m2 visited g r (hml ▸ hm)]
    exact ⟨rfl, hInv⟩
  | none =>
    have hm2 : memoLookup m2 g = none := hml ▸ hm
    by_cases hv : g ∈ visited
    · rw [resolveFrag_visited nf1 m1 visited g hm hv,
          resolveFrag_visited nf2 m2 visited g hm2 hv]
      exact ⟨rfl, hInv⟩
    · by_cases hn : fragNodes nf1 g = []
      · have hn2 : fragNodes nf2 g = [] := by rw [hnf g hg, hn]; rfl
        rw [resolveFrag_no_nodes nf1 m1 visited g hm hv hn,
            resolveFrag_no_nodes nf2 m2 visited g hm2 hv hn2]
        exact ⟨rfl, InvMemo_memoSet fname (scalarsOf fN) m1 m2 g [] hg hInv⟩
      · exact absurd hk (by
          have := countUnvisited_lt nf1 visited g (mem_keys_of_fragNodes_ne_nil nf1 g hn) hv
          omega)

/-- Resolving any other fragment name, given the node-list relation one
budget step down. -/
theorem resolveFrag_rel_step (fname : String) (fN : List NodeWithPath)
    (nf1 nf2 : List (String × List NodeWithPath))
    (hnf : ∀ g, g ≠ fname → fragNodes nf2 g = expandF fname fN (fragNodes nf1 g))
    (j : Nat)
    (hC : ∀ (visited : List String) (m1 m2 : List (String × List ScalarWithPath))
        (nodes : List NodeWithPath),
      InvMemo fname (scalarsOf fN) m1 m2 → fname ∉ visited →
      countUnvisited nf1 visited ≤ j →
      (resolveNodes nf1 m1 visited nodes).1 =
        (resolveNodes nf2 m2 visited (expandF fname fN nodes)).1 ∧
      InvMemo fname (scalarsOf fN) (resolveNodes nf1 m1 visited nodes).2
        (resolveNodes nf2 m2 visited (expandF fname fN nodes)).2)
    (visited : List String) (m1 m2 : List (String × List ScalarWithPath)) (g : String)
    (hg : g ≠ fname) (hInv : InvMemo fname (scalarsOf fN) m1 m2) (hnv : fname ∉ visited)
    (hk : countUnvisited nf1 visited ≤ j + 1) :
    (resolveFrag nf1 m1 visited g).1 = (resolveFrag nf2 m2 visited g).1 ∧
    InvMemo fname (scalarsOf fN) (resolveFrag nf1 m1 visited g).2
      (resolveFrag nf2 m2 visited g).2 := by
  have hml : memoLookup m1 g = memoLookup m2 g := hInv.1 g hg
  cases hm : memoLookup m1 g with
  | some r =>
    rw [resolveFrag_memo_hit nf1 m1 visited g r hm,
        resolveFrag_memo_hit nf2 m2 visited g r (hml ▸ hm)]
    exact ⟨rfl, hInv⟩
  | none =>
    have hm2 : memoLookup m2 g = none := hml ▸ hm
    by_cases hv : g ∈ visited
    · rw [resolveFrag_visited nf1 m1 visited g hm hv,
          resolveFrag_visited nf2 m2 visited g hm2 hv]
      exact ⟨rfl, hInv⟩
    · rw [resolveFrag_go nf1 m1 visited g hm hv, resolveFrag_go nf2 m2 visited g hm2 hv,
          hnf g hg]
      by_cases hn : fragNodes nf1 g = []
      · rw [hn]
        simp only [expandF, resolveNodes_nil]
        exact ⟨trivial, InvMemo_memoSet fname (scalarsOf fN) m1 m2 g [] hg hInv⟩
      · have hcnt : countUnvisited nf1 (visited ++ [g]) ≤ j := by
          have := countUnvisited_lt nf1 visited g (mem_keys_of_fragNodes_ne_nil nf1 g hn) hv
          omega
        have hnv2 : fname ∉ visited ++ [g] := by
          simp only [List.mem_append, List.mem_singleton]
          rintro (h2 | h2)
          · exact hnv h2
          · exact hg h2.symm
        have hcc := hC (visited ++ [g]) m1 m2 (fragNodes nf1 g) hInv hnv2 hcnt
        refine ⟨hcc.1, ?_⟩
        rw [hcc.1]
        exact InvMemo_memoSet fname (scalarsOf fN) _ _ g _ hg hcc.2

/-- Resolving a node list of the original document against the expanded node
list of the inlined document, given the per-fragment relation at the same
budget. -/
theorem resolveNodes_rel_of_frag (fname : String) (fN : List NodeWithPath)
    (nf1 nf2 : List (String × List NodeWithPath))
    (hscal : scalarsOnly fN = true) (hfn1 : fragNodes nf1 fname = fN) (j : Nat)
    (hB : ∀ (visited : List String) (m1 m2 : List (String × List ScalarWithPath)) (g : String),
      g ≠ fname → InvMemo fname (scalarsOf fN) m1 m2 → fname ∉ visited →
      countUnvisited nf1 visited ≤ j →
      (resolveFrag nf1 m1 visited g).1 = (resolveFrag nf2 m2 visited g).1 ∧
      InvMemo fname (scalarsOf fN) (resolveFrag nf1 m1 visited g).2
        (resolveFrag nf2 m2 visited g).2)
    (nodes : List NodeWithPath) :
    ∀ (visited : List String) (m1 m2 : List (String × List ScalarWithPath)),
      InvMemo fname (scalarsOf fN) m1 m2 → fname ∉ visited →
      countUnvisited nf1 visited ≤ j →
      (resolveNodes nf1 m1 visited nodes).1 =
        (resolveNodes nf2 m2 visited (expandF fname fN nodes)).1 ∧
      InvMemo fname (scalarsOf fN) (resolveNodes nf1 m1 visited nodes).2
        (resolveNodes nf2 m2 visited (expandF fname fN nodes)).2 := by
  induction nodes with
  | nil =>
    intro visited m1 m2 hInv _ _
    simp only [expandF, resolveNodes_nil]
    exact ⟨trivial, hInv⟩
  | cons nd rest ih =>
    intro visited m1 m2 hInv hnv hk
    cases nd with
    | scalar n p =>
      have hr := ih visited m1 m2 hInv hnv hk
      simp only [expandF, resolveNodes_scalar, hr.1]
      exact ⟨trivial, hr.2⟩
    | fragment g p =>
      by_cases hg : g = fname
      · subst hg
        have hA := resolveFrag_at_fname g fN nf1 hscal hfn1 m1 m2 visited hInv hnv
        have hmap : scalarsOnly (fN.map (pushNode p)) = true := by
          rw [scalarsOnly_map_push]
          exact hscal
        simp only [expandF, if_pos rfl, if_true, resolveNodes_frag,
          resolveNodes_scalars_append nf2 m2 visited (fN.map (pushNode p))
            (expandF g fN rest) hmap]
        have hr := ih visited (resolveFrag nf1 m1 visited g).2 m2 hA.2 hnv hk
        rw [hA.1, hr.1, scalarsOf_map_push]
        exact ⟨rfl, hr.2⟩

      · have hB2 := hB visited m1 m2 g hg hInv hnv hk
        simp only [expandF, if_neg hg, resolveNodes_frag]
        have hr := ih visited (resolveFrag nf1 m1 visited g).2
          (resolveFrag nf2 m2 visited g).2 hB2.2 hnv hk
        rw [hB2.1, hr.1]
        exact ⟨rfl, hr.2⟩

theorem resolveNodes_inline_rel (fname : String) (fN : List NodeWithPath)
    (nf1 nf2 : List (String × List NodeWithPath))
    (hscal : scalarsOnly fN = true) (hfn1 : fragNodes nf1 fname = fN)
    (hnf : ∀ g, g ≠ fname → fragNodes nf2 g = expandF fname fN (fragNodes nf1 g)) :
    ∀ (k : Nat) (visited : List String) (m1 m2 : List (String × List ScalarWithPath))
      (nodes : List NodeWithPath),
      InvMemo fname (scalarsOf fN) m1 m2 → fname ∉ visited →
      countUnvisited nf1 visited ≤ k →
      (resolveNodes nf1 m1 visited nodes).1 =
        (resolveNodes nf2 m2 visited (expandF fname fN nodes)).1 ∧
      InvMemo fname (scalarsOf fN) (resolveNodes nf1 m1 visited nodes).2
        (resolveNodes nf2 m2 visited (expandF fname fN nodes)).2 := by
  intro k
  induction k with
  | zero =>
    intro visited m1 m2 nodes hInv hnv hk
    exact resolveNodes_rel_of_frag fname fN nf1 nf2 hscal hfn1 0
      (fun v a b g hg hI hv hb =>
        resolveFrag_rel_base fname fN nf1 nf2 hnf v a b g hg hI hv (Nat.le_zero.mp hb))
      nodes visited m1 m2 hInv hnv hk
  | succ k ihk =>
    intro visited m1 m2 nodes hInv hnv hk
    exact resolveNodes_rel_of_frag fname fN nf1 nf2 hscal hfn1 (k + 1)
      (fun v a b g hg hI hv hb =>
        resolveFrag_rel_step fname fN nf1 nf2 hnf k
          (fun v2 a2 b2 nodes2 hI2 hv2 hb2 => ihk v2 a2 b2 nodes2 hI2 hv2 hb2)
          v a b g hg hI hv hb)
      nodes visited m1 m2 hInv hnv hk

theorem resolveNodes_inline (fname : String) (fN : List NodeWithPath)
    (nf1 nf2 : List (String × List NodeWithPath))
    (hscal : scalarsOnly fN = true) (hfn1 : fragNodes nf1 fname = fN)
    (hnf : ∀ g, g ≠ fname → fragNodes nf2 g = expandF fname fN (fragNodes nf1 g))
    (nodes : List NodeWithPath) :
    (resolveNodes nf1 [] [] nodes).1 = (resolveNodes nf2 [] [] (expandF fname fN nodes)).1 :=
  (resolveNodes_inline_rel fname fN nf1 nf2 hscal hfn1 hnf (countUnvisited nf1 []) [] [] []
    nodes ⟨fun _ _ => rfl, rfl, fun r hr => by simp [memoLookup, List.find?] at hr⟩
    (by simp) le_rfl).1

def collectStep (schema : Schema) (sc : ScalarsTable)
    (acc : List NodeWithPath × List (String × List NodeWithPath)) (d : Definition) :
    List NodeWithPath × List (String × List NodeWithPath) :=
  match d with
  | Definition.op _ sels =>
    (acc.1 ++ collectSels schema sc (some schema.queryTypeName) [] sels, acc.2)
  | Definition.frag fname cond sels =>
    (acc.1, addFragNodes acc.2 fname (collectSels schema sc (some cond) [] sels))

theorem collectDoc_eq_fold (schema : Schema) (sc : ScalarsTable) (doc : Document) :
    collectDoc schema sc doc = doc.defs.foldl (collectStep schema sc) ([], []) := rfl

/-- The operation-level nodes of the document, in document order. -/
def docOpNodes (schema : Schema) (sc : ScalarsTable) (doc : Document) : List NodeWithPath :=
  doc.defs.flatMap (fun d =>
    match d with
    | Definition.op _ sels => collectSels schema sc (some schema.queryTypeName) [] sels
    | Definition.frag _ _ _ => [])

/-- The fragment definitions of name `g`: their type conditions and bodies,
in document order. -/
def fragDefsOf (doc : Document) (g : String) : List (String × List Selection) :=
  doc.defs.filterMap (fun d =>
    match d with
    | Definition.frag fn cond sels => if fn = g then some (cond, sels) else none
    | Definition.op _ _ => none)

theorem fragNodes_cons_eq (e : String × List NodeWithPath)
    (nf : List (String × List NodeWithPath)) (g : String) (h : e.1 = g) :
    fragNodes (e :: nf) g = e.2 := by
  simp [fragNodes, List.find?, show (e.1 == g) = true from by simp [h]]

theorem fragNodes_cons_ne (e : String × List NodeWithPath)
    (nf : List (String × List NodeWithPath)) (g : String) (h : e.1 ≠ g) :
    fragNodes (e :: nf) g = fragNodes nf g := by
  simp [fragNodes, List.find?, show (e.1 == g) = false from by simp [h]]

theorem fragNodes_map_upd (fname : String) (nodes : List NodeWithPath)
    (nf : List (String × List NodeWithPath)) (g : String) :
    fragNodes (nf.map (fun e => if e.1 == fname then (e.1, e.2 ++ nodes) else e)) g =
      (if g = fname ∧ (nf.find? (fun x => x.1 == g)).isSome then fragNodes nf g ++ nodes
       else fragNodes nf g) := by
  induction nf with
  | nil => simp [fragNodes, List.find?]
  | cons e rest ih =>
    by_cases hge : e.1 = g
    · by_cases hg : g = fname
      · have hb : (e.1 == fname) = true := by simp [hge, hg]
        simp only [List.map_cons, hb, if_true]
        rw [fragNodes_cons_eq (e.1, e.2 ++ nodes) _ g hge]
        rw [fragNodes_cons_eq e rest g hge]
        rw [if_pos ⟨hg, by simp [List.find?, show (e.1 == g) = true from by simp [hge]]⟩]
      · have hb : (e.1 == fname) = false := by
          simp only [beq_eq_false_iff_ne, ne_eq, hge]
          exact hg
        simp only [List.map_cons, hb]
        rw [show (if false = true then (e.1, e.2 ++ nodes) else e) = e from by simp]
        rw [fragNodes_cons_eq e _ g hge]
        rw [fragNodes_cons_eq e rest g hge]
        simp [hg]
    · have hfind : List.find? (fun x => x.1 == g) (e :: rest) =
          List.find? (fun x => x.1 == g) rest := by
        simp [List.find?, show (e.1 == g) = false from by simp [hge]]
      by_cases hb : (e.1 == fname) = true
      · simp only [List.map_cons, hb, if_true]
        rw [fragNodes_cons_ne (e.1, e.2 ++ nodes) _ g hge]
        rw [fragNodes_cons_ne e rest g hge]
        rw [ih, hfind]
      · have hb2 : (e.1 == fname) = false := by
          cases hbv : (e.1 == fname) with
          | true => exact absurd hbv hb
          | false => rfl
        simp only [List.map_cons, hb2]
        rw [show (if false = true then (e.1, e.2 ++ nodes) else e) = e from by simp]
        rw [fragNodes_cons_ne e _ g hge]
        rw [fragNodes_cons_ne e rest g hge]
        rw [ih, hfind]

theorem fragNodes_append_right (nf : List (String × List NodeWithPath))
    (e : String × List NodeWithPath) (g : String) :
    fragNodes (nf ++ [e]) g =
      (match nf.find? (fun x => x.1 == g) with
       | some x => x.2
       | none => if e.1 = g then e.2 else []) := by
  unfold fragNodes
  rw [List.find?_append]
  cases hf : nf.find? (fun x => x.1 == g) with
  | some x => rfl
  | none =>
    by_cases he : e.1 = g
    · simp [List.find?, show (e.1 == g) = true from by simp [he], he]
    · simp [List.find?, show (e.1 == g) = false from by simp [he], he]

theorem fragNodes_addFragNodes (nf : List (String × List NodeWithPath)) (fname : String)
    (nodes : List NodeWithPath) (g : String) :
    fragNodes (addFragNodes nf fname nodes) g =
      (if g = fname then fragNodes nf g ++ nodes else fragNodes nf g) := by
  unfold addFragNodes
  by_cases hany : nf.any (fun e => e.1 == fname) = true
  · rw [if_pos hany, fragNodes_map_upd]
    by_cases hg : g = fname
    · have hsome : (nf.find? (fun x => x.1 == g)).isSome = true := by
        subst hg
        simp only [List.any_eq_true] at hany
        obtain ⟨e, he, hbe⟩ := hany
        rw [List.find?_isSome]
        exact ⟨e, he, hbe⟩
      rw [if_pos hg, if_pos ⟨hg, hsome⟩]
    · rw [if_neg hg, if_neg (fun hc => hg hc.1)]
  · rw [if_neg hany, fragNodes_append_right]
    have hnone : ∀ h2 : g = fname, nf.find? (fun x => x.1 == g) = none := by
      intro h2
      rw [List.find?_eq_none]
      intro x hx hbx
      subst h2
      simp only [List.any_eq_true, not_exists] at hany
      exact hany x ⟨hx, hbx⟩
    by_cases hg : g = fname
    · rw [if_pos hg, hnone hg]
      have h3 : fragNodes nf g = [] := by unfold fragNodes; rw [hnone hg]
      rw [h3]
      simp [hg]
    · rw [if_neg hg]
      cases hf : nf.find? (fun x => x.1 == g) with
      | some x => simp [fragNodes, hf]
      | none =>
        simp [fragNodes, hf, show fname ≠ g from fun h2 => hg (Eq.symm h2)]

theorem collectFold_fst (schema : Schema) (sc : ScalarsTable) :
    ∀ (defs : List Definition) (acc : List NodeWithPath × List (String × List NodeWithPath)),
      (defs.foldl (collectStep schema sc) acc).1 =
        acc.1 ++ defs.flatMap (fun d =>
          match d with
          | Definition.op _ sels => collectSels schema sc (some schema.queryTypeName) [] sels
          | Definition.frag _ _ _ => []) := by
  intro defs
  induction defs with
  | nil => intro acc; simp
  | cons d rest ih =>
    intro acc
    cases d with
    | op v sels => simp [collectStep, ih, List.append_assoc]
    | frag f c sels => simp [collectStep, ih]

theorem collectDoc_fst (schema : Schema) (sc : ScalarsTable) (doc : Document) :
    (collectDoc schema sc doc).1 = docOpNodes schema sc doc := by
  rw [collectDoc_eq_fold]
  rw [collectFold_fst schema sc doc.defs ([], [])]
  simp [docOpNodes]

theorem collectFold_fragNodes (schema : Schema) (sc : ScalarsTable) :
    ∀ (defs : List Definition) (acc : List NodeWithPath × List (String × List NodeWithPath))
      (g : String),
      fragNodes (defs.foldl (collectStep schema sc) acc).2 g =
        fragNodes acc.2 g ++
          (defs.filterMap (fun d =>
            match d with
            | Definition.frag fn cond sels => if fn = g then some (cond, sels) else none
            | Definition.op _ _ => none)).flatMap
            (fun e => collectSels schema sc (some e.1) [] e.2) := by
  intro defs
  induction defs with
  | nil => intro acc g; simp
  | cons d rest ih =>
    intro acc g
    cases d with
    | op v sels => simp [collectStep, ih]
    | frag f c sels =>
      by_cases hf : f = g
      · subst hf
        simp only [List.foldl_cons, collectStep, ih, fragNodes_addFragNodes, if_pos rfl,
          List.filterMap_cons]
        simp [List.append_assoc]
      · simp only [List.foldl_cons, collectStep, ih, fragNodes_addFragNodes,
          if_neg (show ¬g = f from fun h2 => hf (Eq.symm h2)), List.filterMap_cons, hf]
        simp [hf]

theorem collectDoc_fragNodes (schema : Schema) (sc : ScalarsTable) (doc : Document)
    (g : String) :
    fragNodes (collectDoc schema sc doc).2 g =
      (fragDefsOf doc g).flatMap (fun e => collectSels schema sc (some e.1) [] e.2) := by
  rw [collectDoc_eq_fold, collectFold_fragNodes schema sc doc.defs ([], []) g]
  simp [fragDefsOf, fragNodes, List.find?]

/-- Every spread of `fname` in the definition's selections sits at the
fragment's type condition `cond` (operations start at the root query type,
fragment definitions at their own condition). -/
def spreadsAtDef (schema : Schema) (fname cond : String) : Definition → Bool
  | Definition.op _ sels => spreadsAt schema fname cond (some schema.queryTypeName) sels
  | Definition.frag _ c sels => spreadsAt schema fname cond (some c) sels

/-- Textually inline fragment `fname` everywhere in the document and drop its
definition. -/
def inlineDoc (fname : String) (fsels : List Selection) (doc : Document) : Document :=
  ⟨doc.defs.filterMap (fun d =>
    match d with
    | Definition.op v sels => some (Definition.op v (inlineIn fname fsels sels))
    | Definition.frag g c sels =>
      if g = fname then none else some (Definition.frag g c (inlineIn fname fsels sels)))⟩

theorem docOpNodes_inline (schema : Schema) (sc : ScalarsTable) (fname cond : String)
    (fsels : List Selection) (doc : Document)
    (hsp : ∀ d ∈ doc.defs, spreadsAtDef schema fname cond d = true) :
    docOpNodes schema sc (inlineDoc fname fsels doc) =
      expandF fname (collectSels schema sc (some cond) [] fsels)
        (docOpNodes schema sc doc) := by
  obtain ⟨defs⟩ := doc
  simp only [docOpNodes, inlineDoc] at hsp ⊢
  induction defs with
  | nil => simp [expandF]
  | cons d rest ih =>
    have hd := hsp d (List.mem_cons_self d rest)
    have hrest := ih (fun d2 hd2 => hsp d2 (List.mem_cons_of_mem d hd2))
    cases d with
    | op v sels =>
      simp only [spreadsAtDef] at hd
      simp only [List.filterMap_cons, List.flatMap_cons, hrest, expandF_append,
        collectSels_inline schema sc fname cond fsels (some schema.queryTypeName) [] sels hd]
    | frag g c sels =>
      by_cases hg : g = fname
      · simp [List.filterMap_cons, hg, hrest]
      · simp [List.filterMap_cons, hg, hrest, List.flatMap_cons]

theorem fragDefs_inline (fname : String) (fsels : List Selection) (doc : Document)
    (g : String) (hg : g ≠ fname) :
    fragDefsOf (inlineDoc fname fsels doc) g =
      (fragDefsOf doc g).map (fun e => (e.1, inlineIn fname fsels e.2)) := by
  obtain ⟨defs⟩ := doc
  simp only [fragDefsOf, inlineDoc]
  induction defs with
  | nil => simp
  | cons d rest ih =>
    cases d with
    | op v sels => simp only [List.filterMap_cons, ih]
    | frag f c sels =>
      by_cases hf : f = fname
      · have hfg : f ≠ g := by rw [hf]; exact fun h2 => hg (Eq.symm h2)
        simp only [List.filterMap_cons, hf, if_pos rfl, if_true, ih, hfg, if_neg hfg]
        rw [if_neg (show ¬fname = g from fun h2 => hg (Eq.symm h2))]
      · by_cases hfg : f = g
        · simp only [List.filterMap_cons, if_neg hf, hfg, if_neg hg, if_pos rfl, if_true, ih,
            List.map_cons]
        · simp only [List.filterMap_cons, if_neg hf, if_neg hfg, ih]

theorem fragDefsOf_mem (doc : Document) (g c : String) (sels : List Selection)
    (h : (c, sels) ∈ fragDefsOf doc g) : Definition.frag g c sels ∈ doc.defs := by
  unfold fragDefsOf at h
  rw [List.mem_filterMap] at h
  obtain ⟨d, hd, hf⟩ := h
  cases d with
  | op v s2 => simp at hf
  | frag fn c2 s2 =>
    have hf2 : (if fn = g then some (c2, s2) else none) = some ((c, sels) : String × List Selection) := hf
    by_cases hfn : fn = g
    · rw [if_pos hfn] at hf2
      have hp := Option.some.inj hf2
      have hc : c2 = c := congrArg Prod.fst hp
      have hs : s2 = sels := congrArg Prod.snd hp
      subst hfn
      rw [← hc, ← hs]
      exact hd
    · simp [hfn] at hf2

theorem flatMap_collect_inline (schema : Schema) (sc : ScalarsTable) (fname cond : String)
    (fsels : List Selection) :
    ∀ (lst : List (String × List Selection)),
      (∀ e ∈ lst, spreadsAt schema fname cond (some e.1) e.2 = true) →
      (lst.map (fun e => (e.1, inlineIn fname fsels e.2))).flatMap
          (fun e => collectSels schema sc (some e.1) [] e.2) =
        expandF fname (collectSels schema sc (some cond) [] fsels)
          (lst.flatMap (fun e => collectSels schema sc (some e.1) [] e.2)) := by
  intro lst
  induction lst with
  | nil => intro h2; simp [expandF]
  | cons e tl ih =>
    intro h2
    simp only [List.map_cons, List.flatMap_cons, expandF_append,
      collectSels_inline schema sc fname cond fsels (some e.1) [] e.2
        (h2 e (List.mem_cons_self e tl)),
      ih (fun e2 he2 => h2 e2 (List.mem_cons_of_mem e he2))]

/-- The single-step fragment-inline equivalence: if `fname` is defined exactly
once, with a spread-free body, and every spread of `fname` in the document
sits at the fragment's type condition, then resolving the document equals
resolving the document with the fragment textually inlined everywhere and
its definition dropped. -/
theorem getScalarsInQuery_inline (schema : Schema) (sc : ScalarsTable) (fname cond : String)
    (fsels : List Selection) (doc : Document)
    (hsf : spreadFreeSels fsels = true)
    (honce : fragDefsOf doc fname = [(cond, fsels)])
    (hsp : ∀ d ∈ doc.defs, spreadsAtDef schema fname cond d = true) :
    getScalarsInQuery schema sc doc =
      getScalarsInQuery schema sc (inlineDoc fname fsels doc) := by
  have hscal := collectSels_spreadFree schema sc (some cond) [] fsels hsf
  have hfn1 : fragNodes (collectDoc schema sc doc).2 fname =
      collectSels schema sc (some cond) [] fsels := by
    rw [collectDoc_fragNodes, honce]
    simp
  have hnf : ∀ g, g ≠ fname →
      fragNodes (collectDoc schema sc (inlineDoc fname fsels doc)).2 g =
        expandF fname (collectSels schema sc (some cond) [] fsels)
          (fragNodes (collectDoc schema sc doc).2 g) := by
    intro g hg
    rw [collectDoc_fragNodes, collectDoc_fragNodes, fragDefs_inline fname fsels doc g hg]
    refine flatMap_collect_inline schema sc fname cond fsels (fragDefsOf doc g) ?_
    intro e he
    obtain ⟨c2, s2⟩ := e
    have hmem := fragDefsOf_mem doc g c2 s2 he
    have h2 := hsp (Definition.frag g c2 s2) hmem
    simpa [spreadsAtDef] using h2
  have hq : (collectDoc schema sc (inlineDoc fname fsels doc)).1 =
      expandF fname (collectSels schema sc (some cond) [] fsels) (collectDoc schema sc doc).1 := by
    rw [collectDoc_fst, collectDoc_fst]
    exact docOpNodes_inline schema sc fname cond fsels doc hsp
  unfold getScalarsInQuery
  rw [hq]
  exact resolveNodes_inline fname _ _ _ hscal hfn1 hnf (collectDoc schema sc doc).1

/-- The test fixture schema (src/__tests__/__fixtures__/schema.json as built
from the SDL in the fixture generator): the root `Query` type, the recursive
`Nested` object type, the `String` scalar and the two input object types. -/
def fixtureSchema : Schema :=
  ⟨"Query",
   [("Query", TypeDef.object "Query"
      [("simple", TypeRef.nonNull (TypeRef.named "String")),
       ("nested", TypeRef.nonNull (TypeRef.named "Nested")),
       ("nestedNullable", TypeRef.named "Nested"),
       ("list", TypeRef.nonNull (TypeRef.list (TypeRef.nonNull (TypeRef.named "String")))),
       ("listNested", TypeRef.nonNull (TypeRef.list (TypeRef.nonNull (TypeRef.named "Nested"))))]),
    ("Nested", TypeDef.object "Nested"
      [("name", TypeRef.nonNull (TypeRef.named "String")),
       ("deeplyNested", TypeRef.named "Nested")]),
    ("String", TypeDef.scalar "String"),
    ("ListInput", TypeDef.inputObject "ListInput"
      [("topInput", TypeRef.named "String"), ("nested", TypeRef.named "ListNestedInput")]),
    ("ListNestedInput", TypeDef.inputObject "ListNestedInput"
      [("nestedInput", TypeRef.named "String")])]⟩

/-- The test scalars table: `String` with both transforms registered. -/
def stringTable : ScalarsTable := fun n =>
  if n = "String" then some ⟨some (fun v => v), some (fun v => v)⟩ else none

/-- The `nestedFragment` test case: `{ listNested { ...nested1 } }` with
`nested1` spreading `nested2`. -/
def nestedFragDoc : Document :=
  ⟨[Definition.op [] [Selection.field none "listNested" [Selection.fragmentSpread "nested1"]],
    Definition.frag "nested1" "Nested"
      [Selection.field none "name" [],
       Selection.field none "deeplyNested" [Selection.fragmentSpread "nested2"]],
    Definition.frag "nested2" "Nested" [Selection.field none "name" []]]⟩

/-- The same selection written wholly inline:
`{ listNested { name deeplyNested { name } } }`. -/
def nestedInlineDoc : Document :=
  ⟨[Definition.op [] [Selection.field none "listNested"
      [Selection.field none "name" [],
       Selection.field none "deeplyNested" [Selection.field none "name" []]]]]⟩

/-- The `repeatedFragment` test case: the same fragment spread under two
aliases of the same field. -/
def repeatedFragDoc : Document :=
  ⟨[Definition.frag "SomeFragment" "Nested" [Selection.field none "name" []],
    Definition.op []
      [Selection.field (some "first") "nested" [Selection.fragmentSpread "SomeFragment"],
       Selection.field (some "second") "nested" [Selection.fragmentSpread "SomeFragment"]]]⟩

set_option maxRecDepth 8000 in
theorem getScalarsInQuery_nestedFragDoc :
    getScalarsInQuery fixtureSchema stringTable nestedFragDoc =
      [⟨"String", ["listNested", "name"]⟩,
       ⟨"String", ["listNested", "deeplyNested", "name"]⟩] := by
  have hc : collectDoc fixtureSchema stringTable nestedFragDoc =
      ([NodeWithPath.fragment "nested1" ["listNested"]],
       [("nested1", [NodeWithPath.scalar "String" ["name"],
                     NodeWithPath.fragment "nested2" ["deeplyNested"]]),
        ("nested2", [NodeWithPath.scalar "String" ["name"]])]) := by
    simp [collectDoc, collectSels, nestedFragDoc, fixtureSchema, stringTable, fieldTypeRef,
      lookupType, TypeRef.namedName, hasDeserialize, addFragNodes, List.find?]
  rw [getScalarsInQuery, hc]
  simp [resolveNodes_nil, resolveNodes_scalar, resolveNodes_frag, resolveFrag_memo_hit,
    resolveFrag_visited, resolveFrag_no_nodes, resolveFrag_run2, memoLookup, memoSet, fragNodes,
    List.find?]

set_option maxRecDepth 8000 in
theorem getScalarsInQuery_nestedInlineDoc :
    getScalarsInQuery fixtureSchema stringTable nestedInlineDoc =
      [⟨"String", ["listNested", "name"]⟩,
       ⟨"String", ["listNested", "deeplyNested", "name"]⟩] := by
  have hc : collectDoc fixtureSchema stringTable nestedInlineDoc =
      ([NodeWithPath.scalar "String" ["listNested", "name"],
        NodeWithPath.scalar "String" ["listNested", "deeplyNested", "name"]], []) := by
    simp [collectDoc, collectSels, nestedInlineDoc, fixtureSchema, stringTable, fieldTypeRef,
      lookupType, TypeRef.namedName, hasDeserialize, addFragNodes, List.find?]
  rw [getScalarsInQuery, hc]
  simp [resolveNodes_nil, resolveNodes_scalar]

set_option maxRecDepth 8000 in
theorem getScalarsInQuery_repeatedFragDoc :
    getScalarsInQuery fixtureSchema stringTable repeatedFragDoc =
      [⟨"String", ["first", "name"]⟩, ⟨"String", ["second", "name"]⟩] := by
  have hc : collectDoc fixtureSchema stringTable repeatedFragDoc =
      ([NodeWithPath.fragment "SomeFragment" ["first"],
        NodeWithPath.fragment "SomeFragment" ["second"]],
       [("SomeFragment", [NodeWithPath.scalar "String" ["name"]])]) := by
    simp [collectDoc, collectSels, repeatedFragDoc, fixtureSchema, stringTable, fieldTypeRef,
      lookupType, TypeRef.namedName, hasDeserialize, addFragNodes, List.find?]
  rw [getScalarsInQuery, hc]
  simp [resolveNodes_nil, resolveNodes_scalar, resolveNodes_frag, resolveFrag_memo_hit,
    resolveFrag_visited, resolveFrag_no_nodes, resolveFrag_run2, memoLookup, memoSet, fragNodes,
    List.find?]

/-- C1: a scalar field reached through a named fragment spread resolves to
exactly the scalar paths of the identical selection written inline at the
same position.  First conjunct: the general single-step inlining
equivalence — for any document in which fragment `fname` is defined exactly
once (with condition `cond` and spread-free body `fsels`) and every spread
of `fname` sits where the cursor is at `cond`, `getScalarsInQuery` is
unchanged by textually inlining the fragment everywhere and dropping its
definition.  Remaining conjuncts: the nested-fragment test case (`nested1`
spreading `nested2` under `listNested`) yields exactly one path per `name`
occurrence, equals its fully inlined form, and the repeated aliased spread
uses the alias as the path segment. -/
theorem c1_fragment_inline_equivalence :
    (∀ (schema : Schema) (sc : ScalarsTable) (fname cond : String) (fsels : List Selection)
        (doc : Document),
        spreadFreeSels fsels = true →
        fragDefsOf doc fname = [(cond, fsels)] →
        (∀ d ∈ doc.defs, spreadsAtDef schema fname cond d = true) →
        getScalarsInQuery schema sc doc =
          getScalarsInQuery schema sc (inlineDoc fname fsels doc)) ∧
    getScalarsInQuery fixtureSchema stringTable nestedFragDoc =
      [⟨"String", ["listNested", "name"]⟩,
       ⟨"String", ["listNested", "deeplyNested", "name"]⟩] ∧
    getScalarsInQuery fixtureSchema stringTable nestedFragDoc =
      getScalarsInQuery fixtureSchema stringTable nestedInlineDoc ∧
    getScalarsInQuery fixtureSchema stringTable repeatedFragDoc =
      [⟨"String", ["first", "name"]⟩, ⟨"String", ["second", "name"]⟩] :=
  ⟨getScalarsInQuery_inline, getScalarsInQuery_nestedFragDoc,
   getScalarsInQuery_nestedFragDoc.trans getScalarsInQuery_nestedInlineDoc.symm,
   getScalarsInQuery_repeatedFragDoc⟩

/-- A schema whose only input object type is directly self-recursive:
`SelfInput { val: String, self: SelfInput }`. -/
def cyclicInputSchema : Schema :=
  ⟨"Query",
   [("Query", TypeDef.object "Query" [("simple", TypeRef.named "String")]),
    ("String", TypeDef.scalar "String"),
    ("SelfInput", TypeDef.inputObject "SelfInput"
      [("val", TypeRef.named "String"), ("self", TypeRef.named "SelfInput")])]⟩

/-- An operation declaring one variable of the self-recursive input type. -/
def cyclicVarDoc : Document :=
  ⟨[Definition.op [("v", TypeRef.named "SelfInput")] [Selection.field none "simple" []]]⟩

/-- A document whose fragment spreads itself: `fragment cyc on Nested
{ name ...cyc }` queried under `nested`. -/
def cyclicFragDoc : Document :=
  ⟨[Definition.op [] [Selection.field none "nested" [Selection.fragmentSpread "cyc"]],
    Definition.frag "cyc" "Nested"
      [Selection.field none "name" [], Selection.fragmentSpread "cyc"]]⟩

theorem getScalarsInInput_cyclic :
    getScalarsInInput cyclicInputSchema stringTable cyclicVarDoc =
      [⟨"String", ["v", "val"]⟩] := by
  have hs : resolveScalarsInInputType cyclicInputSchema stringTable
      (TypeRef.named "String") ["SelfInput"] = [⟨"String", []⟩] := by
    rw [resolveInput_scalar cyclicInputSchema stringTable _ _ "String" (by decide) (by rfl)]
    simp [stringTable, hasSerialize]
  have hself : resolveScalarsInInputType cyclicInputSchema stringTable
      (TypeRef.named "SelfInput") ["SelfInput"] = [] :=
    resolveInput_visited _ _ _ _ (by simp [TypeRef.namedName])
  have htop : resolveScalarsInInputType cyclicInputSchema stringTable
      (TypeRef.named "SelfInput") [] = [⟨"String", ["val"]⟩] := by
    rw [resolveInput_inputObject cyclicInputSchema stringTable _ _ "SelfInput"
      [("val", TypeRef.named "String"), ("self", TypeRef.named "SelfInput")]
      (by simp [TypeRef.namedName]) (by rfl)]
    simp only [List.flatMap_cons, List.flatMap_nil, TypeRef.namedName, List.nil_append]
    rw [hs, hself]
    simp
  simp only [getScalarsInInput, docVarDefs, cyclicVarDoc, List.flatMap_cons,
    List.flatMap_nil, List.append_nil, inputScalarsOfVar]
  rw [show lookupType cyclicInputSchema (TypeRef.named "SelfInput").namedName =
    some (TypeDef.inputObject "SelfInput"
      [("val", TypeRef.named "String"), ("self", TypeRef.named "SelfInput")]) from rfl]
  rw [show (TypeRef.named "SelfInput" : TypeRef).namedName = "SelfInput" from rfl]
  rw [show TypeRef.named "SelfInput" = TypeRef.named ("SelfInput" : String) from rfl] at htop
  rw [htop]
  simp

set_option maxRecDepth 8000 in
theorem getScalarsInQuery_cyclicFragDoc :
    getScalarsInQuery fixtureSchema stringTable cyclicFragDoc =
      [⟨"String", ["nested", "name"]⟩] := by
  have hc : collectDoc fixtureSchema stringTable cyclicFragDoc =
      ([NodeWithPath.fragment "cyc" ["nested"]],
       [("cyc", [NodeWithPath.scalar "String" ["name"],
                 NodeWithPath.fragment "cyc" []])]) := by
    simp [collectDoc, collectSels, cyclicFragDoc, fixtureSchema, stringTable, fieldTypeRef,
      lookupType, TypeRef.namedName, hasDeserialize, addFragNodes, List.find?]
  rw [getScalarsInQuery, hc]
  simp [resolveNodes_nil, resolveNodes_scalar, resolveNodes_frag, resolveFrag_memo_hit,
    resolveFrag_visited, resolveFrag_no_nodes, resolveFrag_run2, memoLookup, memoSet, fragNodes,
    List.find?]

/-- C7: cycle guards make both resolvers finite.  Both resolvers are total
Lean functions (termination is established by the well-founded measures in
their definitions), and a name already on the current descent's visited
stack contributes no further paths: a named input type in the visited set
resolves to nothing, and a fragment name on the visited stack (absent from
the memo cache) resolves to nothing without touching the cache.
Concretely, the directly self-recursive input object type still yields its
one scalar path, and the self-spreading fragment document still yields its
one scalar path — no error value exists in either resolver's type. -/
theorem c7_cycle_guard :
    (∀ (schema : Schema) (sc : ScalarsTable) (tref : TypeRef) (visited : List String),
        tref.namedName ∈ visited →
        resolveScalarsInInputType schema sc tref visited = []) ∧
    (∀ (nf : List (String × List NodeWithPath)) (memo : List (String × List ScalarWithPath))
        (visited : List String) (f : String),
        memoLookup memo f = none → f ∈ visited →
        resolveFrag nf memo visited f = ([], memo)) ∧
    getScalarsInInput cyclicInputSchema stringTable cyclicVarDoc =
      [⟨"String", ["v", "val"]⟩] ∧
    getScalarsInQuery fixtureSchema stringTable cyclicFragDoc =
      [⟨"String", ["nested", "name"]⟩] :=
  ⟨resolveInput_visited, resolveFrag_visited, getScalarsInInput_cyclic,
   getScalarsInQuery_cyclicFragDoc⟩

/-- The scalar type names the input resolver would test for a registered
serialize transform: the same walk as `resolveScalarsInInputType`, with the
registration check dropped. -/
def inputTypeScalarNames (schema : Schema) (tref : TypeRef) (visited : List String) :
    List String :=
  if hv : tref.namedName ∈ visited then []
  else
    match hfind : lookupType schema tref.namedName with
    | some (TypeDef.scalar n) => [n]
    | some (TypeDef.enum _) => []
    | some (TypeDef.inputObject _ fields) =>
      fields.flatMap (fun f => inputTypeScalarNames schema f.2 (visited ++ [tref.namedName]))
    | some (TypeDef.object _ _) => []
    | none => []
termination_by ((typeNames schema).filter (fun m => !(visited.contains m))).length
decreasing_by
  refine length_filter_lt_of_witness _ _ _
    (fun x hx => ?_)
    tref.namedName (mem_typeNames_of_lookupType schema _ _ hfind) ?_ ?_
  · simp only [Bool.not_eq_true', List.contains_eq_any_beq, List.any_eq_false] at hx ⊢
    intro a ha
    exact hx a (List.mem_append_left _ ha)
  · simp only [Bool.not_eq_true']
    simp only [List.contains_eq_any_beq, List.any_eq_false]
    intro a ha
    simp only [beq_iff_eq]
    intro haeq
    exact hv (haeq ▸ ha)
  · simp

/-- The scalar type names the input resolver of a document would test,
across all its variable definitions. -/
def docInputScalarNames (schema : Schema) (doc : Document) : List String :=
  (docVarDefs doc).flatMap (fun vd =>
    inputTypeScalarNames schema (TypeRef.named vd.2.namedName) [])

theorem inputNames_scalar (schema : Schema) (tref : TypeRef)
    (visited : List String) (n : String) (h1 : tref.namedName ∉ visited)
    (h2 : lookupType schema tref.namedName = some (TypeDef.scalar n)) :
    inputTypeScalarNames schema tref visited = [n] := by
  rw [inputTypeScalarNames]
  simp only [h1, dif_neg, not_false_iff]
  split <;> simp_all

theorem inputNames_inputObject (schema : Schema) (tref : TypeRef)
    (visited : List String) (nm : String) (fields : List (String × TypeRef))
    (h1 : tref.namedName ∉ visited)
    (h2 : lookupType schema tref.namedName = some (TypeDef.inputObject nm fields)) :
    inputTypeScalarNames schema tref visited =
      fields.flatMap (fun f => inputTypeScalarNames schema f.2 (visited ++ [tref.namedName])) := by
  rw [inputTypeScalarNames]
  simp only [h1, dif_neg, not_false_iff]
  split <;> simp_all

theorem resolveInput_empty_of_unregistered (schema : Schema) (sc : ScalarsTable)
    (tref : TypeRef) (visited : List String) :
    (∀ n ∈ inputTypeScalarNames schema tref visited, hasSerialize sc n = false) →
    resolveScalarsInInputType schema sc tref visited = [] := by
  induction tref, visited using resolveScalarsInInputType.induct schema sc with
  | case1 tref visited hv =>
    intro h
    exact resolveInput_visited schema sc tref visited hv
  | case2 tref visited hv n hfind hser =>
    intro h
    rw [resolveInput_scalar schema sc tref visited n hv hfind]
    rw [inputNames_scalar schema tref visited n hv hfind] at h
    simp [h n (by simp)]
  | case3 tref visited hv n hfind hser =>
    intro h
    rw [resolveInput_scalar schema sc tref visited n hv hfind]
    rw [inputNames_scalar schema tref visited n hv hfind] at h
    simp [h n (by simp)]
  | case4 tref visited hv n hfind =>
    intro h
    exact resolveInput_enum schema sc tref visited n hv hfind
  | case5 tref visited hv nm fields hfind ih =>
    intro h
    rw [resolveInput_inputObject schema sc tref visited nm fields hv hfind]
    rw [inputNames_inputObject schema tref visited nm fields hv hfind] at h
    simp only [List.mem_flatMap] at h
    refine List.flatMap_eq_nil_iff.2 (fun f hf => ?_)
    rw [ih f (fun n hn => h n ⟨f, hf, hn⟩)]
    simp
  | case6 tref visited hv nm fields hfind =>
    intro h
    rw [resolveScalarsInInputType]
    simp only [hv, dif_neg, not_false_iff]
    split <;> simp_all
  | case7 tref visited hv hfind =>
    intro h
    rw [resolveScalarsInInputType]
    simp only [hv, dif_neg, not_false_iff]
    split <;> simp_all

theorem getScalarsInInput_empty_of_unregistered (schema : Schema) (sc : ScalarsTable)
    (doc : Document)
    (h : ∀ n ∈ docInputScalarNames schema doc, hasSerialize sc n = false) :
    getScalarsInInput schema sc doc = [] := by
  simp only [docInputScalarNames, List.mem_flatMap] at h
  refine List.flatMap_eq_nil_iff.2 (fun vd hvd => ?_)
  unfold inputScalarsOfVar
  have hres := resolveInput_empty_of_unregistered schema sc
    (TypeRef.named vd.2.namedName) [] (fun n hn => h n ⟨vd, hvd, hn⟩)
  split <;> simp [hres]

/-- The scalar type names the collection pass would test for a registered
deserialize transform over one selection set: the same walk as
`collectSels`, with the registration check dropped (paths are irrelevant
here). -/
def selScalarNames (schema : Schema) : Option String → List Selection → List String
  | _, [] => []
  | parent, Selection.field _ n subs :: rest =>
    let ftr := parent.bind (fun p => fieldTypeRef schema p n)
    (match ftr.bind (fun tr => lookupType schema tr.namedName) with
     | some (TypeDef.scalar sn) => [sn]
     | _ => []) ++
      selScalarNames schema (ftr.map (fun tr => tr.namedName)) subs ++
      selScalarNames schema parent rest
  | parent, Selection.fragmentSpread _ :: rest => selScalarNames schema parent rest

/-- The scalar type names the collection pass of a whole document would
test, across operations and fragment definitions. -/
def docOutputScalarNames (schema : Schema) (doc : Document) : List String :=
  doc.defs.flatMap (fun d =>
    match d with
    | Definition.op _ sels => selScalarNames schema (some schema.queryTypeName) sels
    | Definition.frag _ cond sels => selScalarNames schema (some cond) sels)

def nodeNotScalar : NodeWithPath → Bool
  | NodeWithPath.scalar _ _ => false
  | NodeWithPath.fragment _ _ => true

theorem collectSels_no_scalar (schema : Schema) (sc : ScalarsTable) (parent : Option String)
    (pref : List String) (sels : List Selection) :
    (∀ m ∈ selScalarNames schema parent sels, hasDeserialize sc m = false) →
    (collectSels schema sc parent pref sels).all nodeNotScalar = true := by
  induction parent, pref, sels using collectSels.induct schema sc with
  | case1 parent pref =>
    intro h
    simp [collectSels]
  | case2 parent pref al n subs rest key ftr ih1 ih2 =>
    intro h
    simp only [selScalarNames, List.mem_append] at h
    have hsubs : (collectSels schema sc
        (Option.map (fun tr => tr.namedName) (parent.bind fun p => fieldTypeRef schema p n))
        (pref ++ [al.getD n]) subs).all nodeNotScalar = true :=
      ih1 (fun m hm => h m (Or.inl (Or.inr hm)))
    have hrest : (collectSels schema sc parent pref rest).all nodeNotScalar = true :=
      ih2 (fun m hm => h m (Or.inr hm))
    simp only [collectSels, List.all_append, Bool.and_eq_true]
    refine ⟨⟨?_, hsubs⟩, hrest⟩
    cases hty : (parent.bind (fun p => fieldTypeRef schema p n)).bind
        (fun tr => lookupType schema tr.namedName) with
    | none => simp [hty]
    | some td =>
      cases td with
      | scalar sn =>
        have hd : hasDeserialize sc sn = false := h sn (Or.inl (Or.inl (by simp [hty])))
        simp [hty, hd]
      | enum e => simp [hty]
      | inputObject a b => simp [hty]
      | object a b => simp [hty]
  | case3 parent pref g rest ih =>
    intro h
    simp only [selScalarNames] at h
    simp only [collectSels, List.all_cons, Bool.and_eq_true]
    exact ⟨rfl, ih h⟩

/-- All cached fragment resolutions are empty. -/
def memoNil (memo : List (String × List ScalarWithPath)) : Bool :=
  memo.all (fun e => e.2.isEmpty)

theorem memoNil_lookup (memo : List (String × List ScalarWithPath)) (f : String)
    (r : List ScalarWithPath) (hm : memoNil memo = true)
    (h : memoLookup memo f = some r) : r = [] := by
  unfold memoLookup at h
  cases hf : memo.find? (fun e => e.1 == f) with
  | none => rw [hf] at h; simp at h
  | some e =>
    rw [hf] at h
    simp only [Option.map_some'] at h
    have hmem := List.mem_of_find?_eq_some hf
    have he2 : e.2.isEmpty = true := by
      simp only [memoNil, List.all_eq_true] at hm
      exact hm e hmem
    have he3 : e.2 = [] := by simpa using he2
    rw [← Option.some.inj h]
    exact he3

theorem memoNil_set_nil (memo : List (String × List ScalarWithPath)) (f : String)
    (hm : memoNil memo = true) : memoNil (memoSet memo f []) = true := by
  simp only [memoNil, memoSet, List.all_append, List.all_cons, List.all_nil,
    Bool.and_eq_true] at hm ⊢
  simp [hm]

theorem fragNodes_all (nf : List (String × List NodeWithPath)) (P : NodeWithPath → Bool)
    (h : ∀ e ∈ nf, e.2.all P = true) (g : String) : (fragNodes nf g).all P = true := by
  unfold fragNodes
  cases hf : nf.find? (fun e => e.1 == g) with
  | none => simp
  | some e => exact h e (List.mem_of_find?_eq_some hf)

theorem resolveNodes_nil_of_no_scalar (nf : List (String × List NodeWithPath))
    (hnf : ∀ g, (fragNodes nf g).all nodeNotScalar = true) :
    ∀ (N : Nat) (visited : List String), countUnvisited nf visited ≤ N →
      ∀ (memo : List (String × List ScalarWithPath)) (nodes : List NodeWithPath),
        memoNil memo = true → nodes.all nodeNotScalar = true →
        (resolveNodes nf memo visited nodes).1 = [] ∧
          memoNil (resolveNodes nf memo visited nodes).2 = true := by
  intro N
  induction N with
  | zero =>
    intro visited hle memo nodes hm hall
    induction nodes generalizing memo with
    | nil => simp [resolveNodes_nil, hm]
    | cons nd rest ih =>
      simp only [List.all_cons, Bool.and_eq_true] at hall
      cases nd with
      | scalar n p => simp [nodeNotScalar] at hall
      | fragment g p =>
        cases hml : memoLookup memo g with
        | some r =>
          have hr : r = [] := memoNil_lookup memo g r hm hml
          rw [resolveNodes_frag, resolveFrag_memo_hit nf memo visited g r hml]
          subst hr
          simpa using ih memo hm hall.2
        | none =>
          by_cases hv : g ∈ visited
          · rw [resolveNodes_frag, resolveFrag_visited nf memo visited g hml hv]
            simpa using ih memo hm hall.2
          · cases hfn : fragNodes nf g with
            | nil =>
              rw [resolveNodes_frag, resolveFrag_no_nodes nf memo visited g hml hv hfn]
              simpa using ih (memoSet memo g []) (memoNil_set_nil memo g hm) hall.2
            | cons x xs =>
              exfalso
              have hlt := countUnvisited_lt nf visited g
                (mem_keys_of_fragNodes_ne_nil nf g (by rw [hfn]; simp)) hv
              omega
  | succ N ihN =>
    intro visited hle memo nodes hm hall
    induction nodes generalizing memo with
    | nil => simp [resolveNodes_nil, hm]
    | cons nd rest ih =>
      simp only [List.all_cons, Bool.and_eq_true] at hall
      cases nd with
      | scalar n p => simp [nodeNotScalar] at hall
      | fragment g p =>
        cases hml : memoLookup memo g with
        | some r =>
          have hr : r = [] := memoNil_lookup memo g r hm hml
          rw [resolveNodes_frag, resolveFrag_memo_hit nf memo visited g r hml]
          subst hr
          simpa using ih memo hm hall.2
        | none =>
          by_cases hv : g ∈ visited
          · rw [resolveNodes_frag, resolveFrag_visited nf memo visited g hml hv]
            simpa using ih memo hm hall.2
          · cases hfn : fragNodes nf g with
            | nil =>
              rw [resolveNodes_frag, resolveFrag_no_nodes nf memo visited g hml hv hfn]
              simpa using ih (memoSet memo g []) (memoNil_set_nil memo g hm) hall.2
            | cons x xs =>
              have hlt := countUnvisited_lt nf visited g
                (mem_keys_of_fragNodes_ne_nil nf g (by rw [hfn]; simp)) hv
              have hsub := ihN (visited ++ [g]) (by omega) memo (fragNodes nf g) hm (hnf g)
              rw [resolveNodes_frag,
                resolveFrag_run2 nf memo visited g hml hv (by rw [hfn]; simp)]
              obtain ⟨h1, h2⟩ := hsub
              rw [h1]
              simpa using ih (memoSet (resolveNodes nf memo (visited ++ [g])
                (fragNodes nf g)).2 g []) (memoNil_set_nil _ g h2) hall.2

theorem getScalarsInQuery_empty_of_unregistered (schema : Schema) (sc : ScalarsTable)
    (doc : Document)
    (h : ∀ n ∈ docOutputScalarNames schema doc, hasDeserialize sc n = false) :
    getScalarsInQuery schema sc doc = [] := by
  have hsub : ∀ d ∈ doc.defs, ∀ m ∈ (match d with
      | Definition.op _ sels => selScalarNames schema (some schema.queryTypeName) sels
      | Definition.frag _ cond sels => selScalarNames schema (some cond) sels),
      hasDeserialize sc m = false := by
    intro d hd m hm
    exact h m (List.mem_flatMap.2 ⟨d, hd, hm⟩)
  have hop : ((collectDoc schema sc doc).1).all nodeNotScalar = true := by
    rw [collectDoc_fst]
    unfold docOpNodes
    simp only [List.all_eq_true]
    intro nd hnd
    rw [List.mem_flatMap] at hnd
    obtain ⟨d, hd, hnd2⟩ := hnd
    cases d with
    | frag f c s => simp at hnd2
    | op v sels =>
      have hall := collectSels_no_scalar schema sc (some schema.queryTypeName) [] sels
        (fun m hm => hsub _ hd m hm)
      rw [List.all_eq_true] at hall
      exact hall nd hnd2
  have hfragall : ∀ g, (fragNodes (collectDoc schema sc doc).2 g).all nodeNotScalar = true := by
    intro g
    rw [collectDoc_fragNodes]
    simp only [List.all_eq_true]
    intro nd hnd
    rw [List.mem_flatMap] at hnd
    obtain ⟨e, he, hnd2⟩ := hnd
    have hmem := fragDefsOf_mem doc g e.1 e.2 he
    have hall := collectSels_no_scalar schema sc (some e.1) [] e.2
      (fun m hm => hsub _ hmem m hm)
    rw [List.all_eq_true] at hall
    exact hall nd hnd2
  unfold getScalarsInQuery
  exact (resolveNodes_nil_of_no_scalar (collectDoc schema sc doc).2 hfragall
    (countUnvisited (collectDoc schema sc doc).2 []) [] le_rfl [] (collectDoc schema sc doc).1
    rfl hop).1

theorem processOperation_id_of_unregistered (schema : Schema) (sc : ScalarsTable)
    (op : Operation)
    (h : ∀ n ∈ docInputScalarNames schema op.query, hasSerialize sc n = false) :
    processOperation schema sc op = op := by
  unfold processOperation
  rw [getScalarsInInput_empty_of_unregistered schema sc op.query h]
  simp

theorem processResult_id_of_unregistered (schema : Schema) (sc : ScalarsTable)
    (r : OperationResult)
    (h : ∀ n ∈ docOutputScalarNames schema r.operation.query, hasDeserialize sc n = false) :
    processResult schema sc r = r := by
  unfold processResult
  split
  · rfl
  · rw [getScalarsInQuery_empty_of_unregistered schema sc r.operation.query h]
    simp

theorem processResult_null_data (schema : Schema) (sc : ScalarsTable)
    (r : OperationResult) (h : r.data = JTree.null) : processResult schema sc r = r := by
  unfold processResult
  rw [h]

theorem hasSerialize_none (sc : ScalarsTable) (n : String) (h : sc n = none) :
    hasSerialize sc n = false := by simp [hasSerialize, h]

theorem hasDeserialize_none (sc : ScalarsTable) (n : String) (h : sc n = none) :
    hasDeserialize sc n = false := by simp [hasDeserialize, h]

/-- C9: no-op behaviour.  When the scalars table registers none of the
scalar type names that the document mentions (on the input side the names
`resolveScalarsInInputType` can reach from its variable definitions, on the
output side the names the collection pass can reach from its selections),
both resolvers return the empty list, the outgoing operation is passed
through unchanged (the source returns the very `operation` object; here the
very same structure), and so is every received result; independently, a
result whose `data` is null is passed through unchanged without resolving
output paths. -/
theorem c9_unregistered_passthrough :
    (∀ (schema : Schema) (sc : ScalarsTable) (doc : Document),
        (∀ n ∈ docInputScalarNames schema doc, sc n = none) →
        getScalarsInInput schema sc doc = []) ∧
    (∀ (schema : Schema) (sc : ScalarsTable) (doc : Document),
        (∀ n ∈ docOutputScalarNames schema doc, sc n = none) →
        getScalarsInQuery schema sc doc = []) ∧
    (∀ (schema : Schema) (sc : ScalarsTable) (op : Operation),
        (∀ n ∈ docInputScalarNames schema op.query, sc n = none) →
        processOperation schema sc op = op) ∧
    (∀ (schema : Schema) (sc : ScalarsTable) (r : OperationResult),
        (∀ n ∈ docOutputScalarNames schema r.operation.query, sc n = none) →
        processResult schema sc r = r) ∧
    (∀ (schema : Schema) (sc : ScalarsTable) (r : OperationResult),
        r.data = JTree.null → processResult schema sc r = r) :=
  ⟨fun schema sc doc h => getScalarsInInput_empty_of_unregistered schema sc doc
      (fun n hn => hasSerialize_none sc n (h n hn)),
   fun schema sc doc h => getScalarsInQuery_empty_of_unregistered schema sc doc
      (fun n hn => hasDeserialize_none sc n (h n hn)),
   fun schema sc op h => processOperation_id_of_unregistered schema sc op
      (fun n hn => hasSerialize_none sc n (h n hn)),
   fun schema sc r h => processResult_id_of_unregistered schema sc r
      (fun n hn => hasDeserialize_none sc n (h n hn)),
   fun schema sc r h => processResult_null_data schema sc r h⟩
